import Mathlib

/-! # spring-version: version resolution, action lookup, companion prefixes, dependencies

A shallow embedding of the decision logic of `main.go`:

* `firstMatchingPrefix` (companion/BOM prefix attribution),
* `BootMetadata.determineBootVersion` with `findCurrentReleaseVersion`,
  `collectVersionCandidates` and `selectLatestMatchingVersion`,
* `StarterMetadata.getAction`,
* `Config.flatDependencies`.

Go strings are embedded as Lean `String`s (sequences of code points, i.e. Go strings holding
valid UTF-8).  Go's `(value, error)` results are embedded as `Except String _`, the error being
the text of the Go error.  The semantic-version library used by `main.go`
(`github.com/Masterminds/semver/v3`) is not part of the program; the resolution functions take it
as a parameter (`SemverLib`), and the statements about them hold for every library with the
stated order laws.  `Semver.lib` is a concrete library with these laws, on which the statements
are evaluated.
-/

namespace SpringVersion

/-! ## Go standard library: `strings` -/

/-- Go `strings.HasPrefix(s, p)`: `p` is a literal leading segment of `s`. -/
def hasPrefix (s p : String) : Bool :=
  p.data.isPrefixOf s.data

/-- Go `strings.Split(s, sep)` for a one-character separator, on the characters of `s`:
the maximal separator-free pieces, in order (always at least one piece). -/
def splitChars (sep : Char) : List Char → List (List Char)
  | [] => [[]]
  | c :: cs =>
    match splitChars sep cs with
    | [] => [[c]]
    | p :: ps => if c = sep then [] :: p :: ps else (c :: p) :: ps

/-- Go `strings.Split(s, sep)` for a one-character separator. -/
def stringsSplit (s : String) (sep : Char) : List String :=
  (splitChars sep s.data).map String.mk

/-- Go `unicode.IsSpace`: the code points with the Unicode White_Space property. -/
def isSpace (c : Char) : Bool :=
  let n := c.toNat
  (9 ≤ n && n ≤ 13) || n = 32 || n = 0x85 || n = 0xA0 || n = 0x1680 ||
  (0x2000 ≤ n && n ≤ 0x200A) || n = 0x2028 || n = 0x2029 || n = 0x202F ||
  n = 0x205F || n = 0x3000

/-- Go `strings.TrimSpace(s)`: `s` without its leading and trailing white space. -/
def trimSpace (s : String) : String :=
  String.mk ((((s.data.dropWhile isSpace).reverse).dropWhile isSpace).reverse)

/-- Go `strings.Contains(s, sub)`, as a proposition: `sub` occurs in `s` as a contiguous
segment. -/
def stringsContains (s sub : String) : Prop :=
  sub.data <:+: s.data

/-- Go `strings.Join(elems, sep)`. -/
def stringsJoin (elems : List String) (sep : String) : String :=
  sep.intercalate elems

/-! ## Data model -/

/-- One element of `BootMetadata.Embedded.Releases`; only the fields the program reads. -/
structure Release where
  Version : String
  Current : Bool
deriving DecidableEq, Repr

/-- The Go struct `BootMetadata`, reduced to `Embedded.Releases`. -/
structure BootMetadata where
  Releases : List Release
deriving DecidableEq, Repr

/-- One element of `StarterMetadata.Type.Values`; only the fields the program reads. -/
structure TypeValue where
  ID : String
  Action : String
deriving DecidableEq, Repr

/-- The Go struct `StarterMetadata`, reduced to `Type.Values`. -/
structure StarterMetadata where
  Values : List TypeValue
deriving DecidableEq, Repr

/-- The Go struct `Config`, reduced to the field read by `flatDependencies`. -/
structure Config where
  Dependencies : List String
deriving DecidableEq, Repr

/-- The package variable `supportedBoms`. -/
def supportedBoms : List String :=
  [ "spring-cloud",
    "spring-cloud-azure",
    "spring-cloud-gcp",
    "spring-cloud-services",
    "spring-modulith",
    "spring-shell",
    "codecentric-spring-boot-admin",
    "hilla",
    "sentry",
    "solace-spring-boot",
    "solace-spring-cloud",
    "testcontainers",
    "vaadin",
    "wavefront" ]

/-! ## `firstMatchingPrefix` and its use in `run` -/

/-- The Go function `firstMatchingPrefix(s, prefixes...)`: the loop returns the first list element
that `s` starts with, and `""` after the loop. -/
def firstMatchingPrefix (s : String) : List String → String
  | [] => ""
  | p :: rest => if hasPrefix s p then p else firstMatchingPrefix s rest

/-- The body of the property loop of `run` for one key/value pair: the line written to the output
(`"%s=%s\n"` of the matching name and the value) when `firstMatchingPrefix` is not `""`, and no
line otherwise. -/
def bomLine (boms : List String) (k v : String) : Option String :=
  let bom := firstMatchingPrefix k boms
  if bom != "" then some (bom ++ "=" ++ v ++ "\n") else none

/-! ## `StarterMetadata.getAction` -/

/-- The loop of `getAction` over `s.Type.Values`. -/
def getActionLoop (targetID : String) : List TypeValue → Except String String
  | [] => .error "can not determine type action"
  | t :: rest => if t.ID == targetID then .ok t.Action else getActionLoop targetID rest

/-- The Go method `(*StarterMetadata).getAction(targetID)`. -/
def StarterMetadata.getAction (s : StarterMetadata) (targetID : String) : Except String String :=
  getActionLoop targetID s.Values

/-! ## `Config.flatDependencies` -/

/-- The inner loop of `flatDependencies` over the parts of one item, threading the result
slice `dependencies`. -/
def flatParts (dependencies : List String) : List String → List String
  | [] => dependencies
  | part :: parts =>
    let trimmed := trimSpace part
    if trimmed != "" then flatParts (dependencies ++ [trimmed]) parts
    else flatParts dependencies parts

/-- The outer loop of `flatDependencies` over `c.Dependencies`. -/
def flatItems (dependencies : List String) : List String → List String
  | [] => dependencies
  | item :: items => flatItems (flatParts dependencies (stringsSplit item ',')) items

/-- The Go method `(*Config).flatDependencies()`. -/
def Config.flatDependencies (c : Config) : List String :=
  flatItems [] c.Dependencies

/-- The normalisation as the specification words it: every raw entry is split on commas, every
sub-part is trimmed, the sub-parts that are empty after trimming are dropped, and the survivors
are concatenated in outer order, then sub-part order. -/
def normalizeSpec (raw : List String) : List String :=
  (raw.map (fun entry =>
    ((stringsSplit entry ',').map trimSpace).filter (fun part => part ≠ ""))).flatten

/-! ## The semantic-version library, as a parameter -/

/-- The operations of `github.com/Masterminds/semver/v3` that `main.go` calls:
`semver.NewVersion`, `semver.NewConstraint`, `(*Constraints).Check`, `(*Version).GreaterThan`,
`(*Version).Original` and `(*Constraints).String`.  A Go error is represented by its text. -/
structure SemverLib where
  Version : Type
  Constraints : Type
  NewVersion : String → Except String Version
  NewConstraint : String → Except String Constraints
  Check : Constraints → Version → Bool
  GreaterThan : Version → Version → Bool
  Original : Version → String
  ConstraintsString : Constraints → String

/-- The library keeps the string a version was parsed from: `Original` of the result of
`NewVersion s` is `s`. -/
def SemverLib.KeepsOriginal (L : SemverLib) : Prop :=
  ∀ s v, L.NewVersion s = .ok v → L.Original v = s

/-- The relation `GreaterThan` is a strict order: irreflexive and transitive. -/
def SemverLib.StrictOrder (L : SemverLib) : Prop :=
  (∀ a, L.GreaterThan a a = false) ∧
  (∀ a b c, L.GreaterThan a b = true → L.GreaterThan b c = true → L.GreaterThan a c = true)

/-- The relation `GreaterThan` is a strict weak order: a strict order in which whatever is above
`c` is above `b`, unless `b` is itself above `c` (so "neither is greater" is an equivalence). -/
def SemverLib.WeakOrder (L : SemverLib) : Prop :=
  L.StrictOrder ∧
  (∀ a b c, L.GreaterThan a c = true → L.GreaterThan a b = true ∨ L.GreaterThan b c = true)

/-- The string `s` parses to a version that satisfies `c`. -/
def SemverLib.Satisfies (L : SemverLib) (c : L.Constraints) (s : String) : Prop :=
  ∃ v, L.NewVersion s = .ok v ∧ L.Check c v = true

/-- The version that `a` parses to is strictly greater than the one `b` parses to. -/
def SemverLib.Above (L : SemverLib) (a b : String) : Prop :=
  ∃ va vb, L.NewVersion a = .ok va ∧ L.NewVersion b = .ok vb ∧ L.GreaterThan va vb = true

/-! ## Version resolution -/

/-- The Go method `(*BootMetadata).findCurrentReleaseVersion()`, as a loop over the releases. -/
def findCurrentLoop : List Release → String
  | [] => ""
  | r :: rest => if r.Current then r.Version else findCurrentLoop rest

/-- The Go method `(*BootMetadata).findCurrentReleaseVersion()`. -/
def BootMetadata.findCurrentReleaseVersion (b : BootMetadata) : String :=
  findCurrentLoop b.Releases

/-- The loop of `collectVersionCandidates`, threading the slice `versions`. -/
def collectLoop (versions : List String) : List Release → List String
  | [] => versions
  | release :: rest => collectLoop (versions ++ [release.Version]) rest

/-- The Go method `(*BootMetadata).collectVersionCandidates()`. -/
def BootMetadata.collectVersionCandidates (b : BootMetadata) : Except String (List String) :=
  let versions := collectLoop [] b.Releases
  if versions.length == 0 then .error "no valid spring-boot versions found"
  else .ok versions

/-- The body of the loop of `selectLatestMatchingVersion` once `ver` has parsed to `v`: the
assignment `selected = v` happens when `v` satisfies the constraints and either nothing is
selected yet (`none` is the nil pointer) or `v` is greater than the selection. -/
def selectStep (L : SemverLib) (constraints : L.Constraints) (selected : Option L.Version)
    (v : L.Version) : Option L.Version :=
  if L.Check constraints v then
    match selected with
    | none => some v
    | some sel => if L.GreaterThan v sel then some v else selected
  else selected

/-- The loop of `selectLatestMatchingVersion`, threading the variable `selected`; a version
string that does not parse ends the loop with the error. -/
def selectLoop (L : SemverLib) (constraints : L.Constraints) :
    Option L.Version → List String → Except String (Option L.Version)
  | selected, [] => .ok selected
  | selected, ver :: rest =>
    match L.NewVersion ver with
    | .error err => .error ("invalid spring-boot version format: " ++ ver ++ ": " ++ err)
    | .ok v => selectLoop L constraints (selectStep L constraints selected v) rest

/-- The text of the error returned when no version matches. -/
def noMatchingError (L : SemverLib) (constraints : L.Constraints) (versions : List String) :
    String :=
  "no spring-boot version matching the given constraints [" ++ L.ConstraintsString constraints
    ++ "]: " ++ stringsJoin versions ", " ++ "\n"

/-- The Go function `selectLatestMatchingVersion(versions, constraints)`. -/
def selectLatestMatchingVersion (L : SemverLib) (versions : List String)
    (constraints : L.Constraints) : Except String String :=
  match selectLoop L constraints none versions with
  | .error err => .error err
  | .ok (some selected) => .ok (L.Original selected)
  | .ok none => .error (noMatchingError L constraints versions)

/-- The first statement of `determineBootVersion`: an empty `target` is replaced by the version of
the current release. -/
def BootMetadata.substituteTarget (b : BootMetadata) (target : String) : String :=
  if target == "" then b.findCurrentReleaseVersion else target

/-- The Go method `(*BootMetadata).determineBootVersion(target)`; the line printed to standard
output on success is not part of the result and is left out. -/
def BootMetadata.determineBootVersion (L : SemverLib) (b : BootMetadata) (target : String) :
    Except String String :=
  let target := b.substituteTarget target
  if target == "" then .error "can not determine spring-boot version"
  else
    match b.collectVersionCandidates with
    | .error err => .error err
    | .ok versions =>
      match L.NewConstraint target with
      | .error err => .error ("invalid spring-boot constraint format: " ++ target ++ ": " ++ err)
      | .ok constraints =>
        match selectLatestMatchingVersion L versions constraints with
        | .error err => .error err
        | .ok selected => .ok selected

/-! ## A concrete semantic-version library -/

namespace Semver

/-- A pre-release identifier: numeric, or alphanumeric (kept as its characters). -/
inductive PreId where
  | num (n : Nat)
  | alnum (cs : List Char)
deriving DecidableEq, Repr

/-- A parsed version: `major.minor.patch`, the pre-release identifiers (none for a release), the
build metadata, and the string the version was parsed from. -/
structure Version where
  major : Nat
  minor : Nat
  patch : Nat
  pre : List PreId
  metadata : List Char
  original : String
deriving DecidableEq, Repr

/-- The comparison operators of the constraint fragment. -/
inductive Op where
  | eq | ne | gt | ge | lt | le
deriving DecidableEq, Repr

/-- One comparator of a constraint: the operator, its spelling, and the version compared with. -/
structure Comparator where
  op : Op
  spelling : String
  con : Version
deriving DecidableEq, Repr

/-- The characters `0`-`9`. -/
def isDigit (c : Char) : Bool :=
  48 ≤ c.toNat && c.toNat ≤ 57

/-- The characters of identifiers: `0`-`9`, `A`-`Z`, `a`-`z` and `-`. -/
def isIdentChar (c : Char) : Bool :=
  isDigit c || (65 ≤ c.toNat && c.toNat ≤ 90) || (97 ≤ c.toNat && c.toNat ≤ 122) || c = '-'

/-- The value of a string of decimal digits, read left to right from `acc`. -/
def digitsValue (acc : Nat) : List Char → Nat
  | [] => acc
  | c :: cs => digitsValue (acc * 10 + (c.toNat - 48)) cs

/-- An unsigned 64-bit decimal number: non-empty, digits only, below `2 ^ 64`. -/
def parseUint (cs : List Char) : Option Nat :=
  if cs ≠ [] ∧ cs.all isDigit ∧ digitsValue 0 cs < 2 ^ 64 then some (digitsValue 0 cs) else none

/-- The input cut at the first occurrence of `sep`: what precedes it, and what follows it when it
occurs. -/
def cutAt (sep : Char) : List Char → List Char × Option (List Char)
  | [] => ([], none)
  | c :: cs =>
    if c = sep then ([], some cs)
    else ((c :: (cutAt sep cs).1), (cutAt sep cs).2)

/-- A non-empty run of digits. -/
def isNumeric (cs : List Char) : Bool :=
  decide (cs ≠ []) && cs.all isDigit

/-- A non-empty run of identifier characters. -/
def isIdent (cs : List Char) : Bool :=
  decide (cs ≠ []) && cs.all isIdentChar

/-- A run of more than one digit that starts with `0`. -/
def hasLeadingZero (cs : List Char) : Bool :=
  cs.all isDigit && decide (1 < cs.length) && decide (cs.head? = some '0')

/-- The pre-release identifier written `cs`: numeric when `cs` is a digit string that fits 64
bits, alphanumeric otherwise. -/
def toPreId (cs : List Char) : PreId :=
  match parseUint cs with
  | some n => PreId.num n
  | none => PreId.alnum cs

/-- Build metadata: dot-separated non-empty runs of identifier characters. -/
def validMetadata (cs : List Char) : Bool :=
  (splitChars '.' cs).all isIdent

/-- The syntax `[v]MAJOR[.MINOR[.PATCH]][-PRERELEASE][+METADATA]`: the numeric segments (one to
three non-empty digit strings), the dot-separated pre-release identifiers (non-empty runs of
identifier characters; none without a pre-release part) and the build metadata, when the input
is written that way. -/
def versionSyntax (cs : List Char) :
    Option (List (List Char) × List (List Char) × List Char) :=
  let body := match cs with
    | 'v' :: rest => rest
    | _ => cs
  let (core, build) := cutAt '+' body
  let (nums, pre) := cutAt '-' core
  let segs := splitChars '.' nums
  let preSegs := match pre with
    | none => []
    | some p => splitChars '.' p
  let buildOk := match build with
    | none => true
    | some m => validMetadata m
  if segs.length ≤ 3 ∧ segs.all isNumeric = true ∧ preSegs.all isIdent = true ∧ buildOk = true
  then some (segs, preSegs, build.getD [])
  else none

/-- The text of the library's error for a numeric segment that does not fit 64 bits; it embeds
the text of the error of Go's `strconv.ParseUint`. -/
def segmentRangeError (seg : List Char) : String :=
  "Error parsing version segment: strconv.ParseUint: parsing \"" ++ String.mk seg ++
    "\": value out of range"

/-- The version written with the given segments.  The numeric segments are read in order and
the first that does not fit 64 bits is an error; then a numeric pre-release identifier with a
leading zero is an error.  Missing minor and patch segments are `0`. -/
def versionOfSyntax (original : String) (segs preSegs : List (List Char))
    (build : List Char) : Except String Version :=
  match segs.find? (fun seg => (parseUint seg).isNone) with
  | some seg => .error (segmentRangeError seg)
  | none =>
    if preSegs.any hasLeadingZero then .error "Version segment starts with 0"
    else
      .ok ⟨digitsValue 0 (segs.getD 0 []), digitsValue 0 (segs.getD 1 []),
        digitsValue 0 (segs.getD 2 []), preSegs.map toPreId, build, original⟩

/-- Modelled from the spec: `semver.NewVersion` of the external library, for the version syntax
`[v]MAJOR[.MINOR[.PATCH]][-PRERELEASE][+METADATA]`; the result keeps the string it was parsed
from.  The error texts are the library's: `Invalid Semantic Version` for an input not written
that way, the segment-range error, and `Version segment starts with 0`. -/
def NewVersion (s : String) : Except String Version :=
  match versionSyntax s.data with
  | none => .error "Invalid Semantic Version"
  | some (segs, preSegs, build) => versionOfSyntax s segs preSegs build

/-- Lexicographic comparison of two lists; a proper initial segment is smaller. -/
def cmpLex {α : Type} (cmp : α → α → Ordering) : List α → List α → Ordering
  | [], [] => .eq
  | [], _ :: _ => .lt
  | _ :: _, [] => .gt
  | a :: as, b :: bs => (cmp a b).then (cmpLex cmp as bs)

/-- Comparison of characters by code point. -/
def cmpChar (a b : Char) : Ordering :=
  compare a.toNat b.toNat

/-- Comparison of pre-release identifiers: numeric ones numerically, alphanumeric ones lexically,
and a numeric one below an alphanumeric one. -/
def cmpPreId : PreId → PreId → Ordering
  | .num a, .num b => compare a b
  | .num _, .alnum _ => .lt
  | .alnum _, .num _ => .gt
  | .alnum a, .alnum b => cmpLex cmpChar a b

/-- Comparison of pre-release parts: a version without one is above a version with one; two
pre-releases compare identifier by identifier, the shorter losing a tie. -/
def cmpPre : List PreId → List PreId → Ordering
  | [], [] => .eq
  | [], _ :: _ => .gt
  | _ :: _, [] => .lt
  | a :: as, b :: bs => cmpLex cmpPreId (a :: as) (b :: bs)

/-- Modelled from the spec: the semantic-version ordering of the external library (its
`Compare`): major, then minor, then patch numerically, then the pre-release parts; build metadata
and the original spelling play no role. -/
def Compare (a b : Version) : Ordering :=
  (compare a.major b.major).then
    ((compare a.minor b.minor).then
      ((compare a.patch b.patch).then (cmpPre a.pre b.pre)))

/-- Modelled from the spec: `(*Version).GreaterThan` of the external library. -/
def GreaterThan (a b : Version) : Bool :=
  decide (Compare a b = .gt)

/-- An operator spelled at the start of a comparator (two-character spellings first), and the
rest of the input. -/
def parseOp : List Char → Op × String × List Char
  | '>' :: '=' :: rest => (.ge, ">=", rest)
  | '=' :: '>' :: rest => (.ge, "=>", rest)
  | '<' :: '=' :: rest => (.le, "<=", rest)
  | '=' :: '<' :: rest => (.le, "=<", rest)
  | '!' :: '=' :: rest => (.ne, "!=", rest)
  | '>' :: rest => (.gt, ">", rest)
  | '<' :: rest => (.lt, "<", rest)
  | '=' :: rest => (.eq, "=", rest)
  | rest => (.eq, "", rest)

/-- The white space of the library's regular expressions: space, tab, line feed, form feed and
carriage return. -/
def isWs (c : Char) : Bool :=
  c = ' ' || c = '\t' || c = '\n' || c.toNat = 12 || c = '\r'

/-- The input without leading and trailing white space. -/
def trimWs (cs : List Char) : List Char :=
  (((cs.dropWhile isWs).reverse).dropWhile isWs).reverse

/-- The syntax of one comparator: an optional operator followed by a version written with all
three numeric segments, white space allowed around both.  The result is the operator, its
spelling, the operand as written and the operand's segments. -/
def comparatorSyntax (part : String) :
    Option (Op × String × String × List (List Char) × List (List Char) × List Char) :=
  let (op, spelling, rest) := parseOp (trimWs part.data)
  let operand := trimWs rest
  match versionSyntax operand with
  | some (segs, preSegs, build) =>
    if segs.length = 3 then some (op, spelling, String.mk operand, segs, preSegs, build)
    else none
  | none => none

/-- The comparator with the given syntax; an operand that is written as a version but is not
one (a segment out of range, a leading zero) is the library's `constraint Parser Error`. -/
def comparatorOfSyntax
    (item : Op × String × String × List (List Char) × List (List Char) × List Char) :
    Except String Comparator :=
  match versionOfSyntax item.2.2.1 item.2.2.2.1 item.2.2.2.2.1 item.2.2.2.2.2 with
  | .error _ => .error "constraint Parser Error"
  | .ok con => .ok ⟨item.1, item.2.1, con⟩

/-- All elements of a list of optional values, when none is missing. -/
def allSome {α : Type} : List (Option α) → Option (List α)
  | [] => some []
  | none :: _ => none
  | some a :: rest =>
    match allSome rest with
    | none => none
    | some as => some (a :: as)

/-- All results of a list, or the first error. -/
def allOk {α : Type} : List (Except String α) → Except String (List α)
  | [] => .ok []
  | .error e :: _ => .error e
  | .ok a :: rest =>
    match allOk rest with
    | .error e => .error e
    | .ok as => .ok (a :: as)

/-- Modelled from the spec: `semver.NewConstraint` of the external library, restricted to a
fragment: one or more comparators separated by commas (conjoined), each an operator among `=`,
`!=`, `>`, `>=`, `=>`, `<`, `<=`, `=<` or none (meaning `=`) followed by a version written with
all three numeric segments.  The specification names `~`, `^` and wildcards without giving their
meaning; these, partial versions, comparators separated by white space only, hyphen ranges and
`||` are outside the fragment, and this model answers `improper constraint` on them whatever the
library does.  Inside the fragment the error texts are the library's. -/
def NewConstraint (s : String) : Except String (List Comparator) :=
  match allSome ((stringsSplit s ',').map comparatorSyntax) with
  | none => .error ("improper constraint: " ++ s)
  | some items => allOk (items.map comparatorOfSyntax)

/-- The library's exclusion of pre-releases: a pre-release version is not compared with a
comparator whose own version is not a pre-release. -/
def excludesPre (v : Version) (c : Comparator) : Bool :=
  decide (v.pre ≠ [] ∧ c.con.pre = [])

/-- Whether a version satisfies one comparator written with a full version.  `!=` holds of every
version that does not compare equal; the other operators first apply the exclusion of
pre-releases and then compare. -/
def checkComparator (v : Version) (c : Comparator) : Bool :=
  match c.op with
  | .ne => decide (Compare v c.con ≠ .eq)
  | .eq => !excludesPre v c && decide (Compare v c.con = .eq)
  | .gt => !excludesPre v c && decide (Compare v c.con = .gt)
  | .ge => !excludesPre v c && decide (Compare v c.con ≠ .lt)
  | .lt => !excludesPre v c && decide (Compare v c.con = .lt)
  | .le => !excludesPre v c && decide (Compare v c.con ≠ .gt)

/-- Modelled from the spec: `(*Constraints).Check` of the external library: every comparator
holds (comma means "and"). -/
def Check (cs : List Comparator) (v : Version) : Bool :=
  cs.all (checkComparator v)

/-- Modelled from the spec: `(*Constraints).String` of the external library: the comparators,
operator then version, separated by spaces. -/
def ConstraintsString (cs : List Comparator) : String :=
  " ".intercalate (cs.map (fun c => c.spelling ++ c.con.original))

/-- Modelled from the spec: the external semantic-version library, as an instance of the
interface `SemverLib`. -/
def lib : SemverLib where
  Version := Version
  Constraints := List Comparator
  NewVersion := NewVersion
  NewConstraint := NewConstraint
  Check := Check
  GreaterThan := GreaterThan
  Original := fun v => v.original
  ConstraintsString := ConstraintsString

/-- The laws of a three-way comparison that is a total preorder: comparing the other way round
swaps the answer, "less" is transitive, and elements that compare equal compare alike with
every third one. -/
structure OrdLaws {α : Type} (cmp : α → α → Ordering) : Prop where
  swap : ∀ a b, cmp b a = (cmp a b).swap
  lt_trans : ∀ a b c, cmp a b = .lt → cmp b c = .lt → cmp a c = .lt
  eq_left : ∀ a b c, cmp a b = .eq → cmp a c = cmp b c

end Semver

/-! ## Facts about the standard-library functions -/

theorem hasPrefix_iff (s p : String) : hasPrefix s p = true ↔ p.data <+: s.data := by
  simp [hasPrefix]

theorem splitChars_ne_nil (sep : Char) (cs : List Char) : splitChars sep cs ≠ [] := by
  cases cs with
  | nil => simp [splitChars]
  | cons c cs =>
    simp only [splitChars]
    split
    · simp
    · split <;> simp

/-- Joining the pieces of `splitChars` with the separator gives the input back. -/
theorem splitChars_intercalate (sep : Char) (cs : List Char) :
    [sep].intercalate (splitChars sep cs) = cs := by
  induction cs with
  | nil => simp [splitChars, List.intercalate]
  | cons c cs ih =>
    simp only [splitChars]
    split
    · next h => exact absurd h (splitChars_ne_nil sep cs)
    · next p ps h =>
      rw [h] at ih
      split
      · next hc =>
        subst hc
        cases ps <;> simp_all [List.intercalate, List.intersperse]
      · cases ps <;> simp_all [List.intercalate, List.intersperse]

/-- No piece of `splitChars` contains the separator. -/
theorem splitChars_no_sep (sep : Char) (cs : List Char) :
    ∀ p ∈ splitChars sep cs, sep ∉ p := by
  induction cs with
  | nil => simp [splitChars]
  | cons c cs ih =>
    simp only [splitChars]
    split
    · next h => exact absurd h (splitChars_ne_nil sep cs)
    · next p ps h =>
      rw [h] at ih
      split
      · intro q hq
        simp only [List.mem_cons] at hq
        rcases hq with rfl | rfl | hq
        · simp
        · exact ih _ (by simp)
        · exact ih _ (by simp [hq])
      · next hc =>
        intro q hq
        simp only [List.mem_cons] at hq
        rcases hq with rfl | hq
        · have := ih p (by simp)
          simp only [List.mem_cons, not_or]
          exact ⟨fun h => hc h.symm, this⟩
        · exact ih _ (by simp [hq])

theorem dropWhile_head_not {α : Type} (p : α → Bool) (l : List α) (c : α)
    (h : (l.dropWhile p).head? = some c) : p c = false := by
  induction l with
  | nil => simp at h
  | cons a l ih =>
    by_cases ha : p a = true
    · simp only [List.dropWhile_cons, ha, if_true] at h
      exact ih h
    · simp only [List.dropWhile_cons, ha] at h
      simp at h
      subst h
      simpa using ha

theorem rsplit_while {α : Type} (p : α → Bool) (xs : List α) :
    xs = ((xs.reverse).dropWhile p).reverse ++ ((xs.reverse).takeWhile p).reverse := by
  rw [← List.reverse_append, List.takeWhile_append_dropWhile, List.reverse_reverse]

theorem trimChars_spec (p : Char → Bool) (cs : List Char) :
    ∃ l r : List Char, cs = l ++ (((cs.dropWhile p).reverse).dropWhile p).reverse ++ r ∧
      (∀ c ∈ l, p c = true) ∧ (∀ c ∈ r, p c = true) ∧
      (∀ c, ((((cs.dropWhile p).reverse).dropWhile p).reverse).head? = some c → p c = false) ∧
      (∀ c, ((((cs.dropWhile p).reverse).dropWhile p).reverse).getLast? = some c → p c = false) := by
  refine ⟨cs.takeWhile p, (((cs.dropWhile p).reverse).takeWhile p).reverse, ?_, ?_, ?_, ?_, ?_⟩
  · rw [List.append_assoc, ← rsplit_while p (cs.dropWhile p),
      List.takeWhile_append_dropWhile]
  · intro c hc
    exact List.mem_takeWhile_imp hc
  · intro c hc
    rw [List.mem_reverse] at hc
    exact List.mem_takeWhile_imp hc
  · intro c hc
    apply dropWhile_head_not p cs c
    rw [rsplit_while p (cs.dropWhile p)]
    cases hq : (((cs.dropWhile p).reverse).dropWhile p).reverse with
    | nil => rw [hq] at hc; simp at hc
    | cons a q => rw [hq] at hc; simpa using hc
  · intro c hc
    rw [List.getLast?_reverse] at hc
    exact dropWhile_head_not p _ c hc

/-- The result of `trimSpace` is the input without a leading and a trailing run of white space;
it neither starts nor ends with white space. -/
theorem trimSpace_spec (s : String) :
    ∃ l r : List Char, s.data = l ++ (trimSpace s).data ++ r ∧
      (∀ c ∈ l, isSpace c = true) ∧ (∀ c ∈ r, isSpace c = true) ∧
      (∀ c, (trimSpace s).data.head? = some c → isSpace c = false) ∧
      (∀ c, (trimSpace s).data.getLast? = some c → isSpace c = false) :=
  trimChars_spec isSpace s.data

/-! ## `firstMatchingPrefix` -/

theorem firstMatchingPrefix_of_none (s : String) (boms : List String)
    (h : ∀ q ∈ boms, ¬ q.data <+: s.data) : firstMatchingPrefix s boms = "" := by
  induction boms with
  | nil => rfl
  | cons p rest ih =>
    have hp : hasPrefix s p = false := by
      have := h p (by simp)
      rw [← hasPrefix_iff] at this
      simpa using this
    simp only [firstMatchingPrefix, hp]
    exact ih (fun q hq => h q (by simp [hq]))

theorem firstMatchingPrefix_of_first (s : String) (before : List String) (p : String)
    (after : List String) (hp : p.data <+: s.data) (hb : ∀ q ∈ before, ¬ q.data <+: s.data) :
    firstMatchingPrefix s (before ++ p :: after) = p := by
  induction before with
  | nil =>
    have : hasPrefix s p = true := (hasPrefix_iff s p).2 hp
    simp [firstMatchingPrefix, this]
  | cons q rest ih =>
    have hq : hasPrefix s q = false := by
      have := hb q (by simp)
      rw [← hasPrefix_iff] at this
      simpa using this
    simp only [List.cons_append, firstMatchingPrefix, hq]
    exact ih (fun r hr => hb r (by simp [hr]))

/-- Claim C8.  `firstMatchingPrefix` returns the earliest element of the list that is a literal
leading segment of the key, whatever longer or later elements also match; when no element is a
leading segment of the key it returns the empty string, and then `run` writes no line for the
key. -/
theorem firstMatchingPrefix_first_match (key : String) (boms : List String) :
    (∀ before p after, boms = before ++ p :: after → p.data <+: key.data →
        (∀ q ∈ before, ¬ q.data <+: key.data) → firstMatchingPrefix key boms = p) ∧
    ((∀ q ∈ boms, ¬ q.data <+: key.data) →
        firstMatchingPrefix key boms = "" ∧ ∀ v, bomLine boms key v = none) := by
  refine ⟨?_, ?_⟩
  · intro before p after hb hp hn
    rw [hb]
    exact firstMatchingPrefix_of_first key before p after hp hn
  · intro hn
    have h := firstMatchingPrefix_of_none key boms hn
    exact ⟨h, fun v => by simp [bomLine, h]⟩

/-- Claim C8 at prefixes `spring-cloud`, `spring-cloud-gcp` and key `spring-cloud-gcp.version`:
the key is attributed to `spring-cloud`; and a key that no supported name starts is not
emitted. -/
theorem firstMatchingPrefix_first_match_witness :
    firstMatchingPrefix "spring-cloud-gcp.version" ["spring-cloud", "spring-cloud-gcp"]
        = "spring-cloud" ∧
    (firstMatchingPrefix "java.version" supportedBoms = "" ∧
        ∀ v, bomLine supportedBoms "java.version" v = none) :=
  ⟨(firstMatchingPrefix_first_match "spring-cloud-gcp.version"
        ["spring-cloud", "spring-cloud-gcp"]).1 [] "spring-cloud" ["spring-cloud-gcp"] rfl
        (by decide) (by simp),
   (firstMatchingPrefix_first_match "java.version" supportedBoms).2 (by decide)⟩

/-- A result of `firstMatchingPrefix` is the empty string or a list element that the key starts
with. -/
theorem firstMatchingPrefix_result (key : String) (boms : List String) :
    firstMatchingPrefix key boms = "" ∨
      (firstMatchingPrefix key boms ∈ boms ∧
        (firstMatchingPrefix key boms).data <+: key.data) := by
  induction boms with
  | nil => exact Or.inl rfl
  | cons p rest ih =>
    by_cases hp : hasPrefix key p = true
    · right
      simp only [firstMatchingPrefix, hp, if_true]
      exact ⟨by simp, (hasPrefix_iff key p).1 hp⟩
    · simp only [firstMatchingPrefix, hp]
      rcases ih with h | ⟨h1, h2⟩
      · exact Or.inl h
      · exact Or.inr ⟨List.mem_cons_of_mem _ h1, h2⟩

/-- A list element that a different, earlier element is a leading segment of is never returned:
a key that starts with the longer name starts with the shorter one, which is found first. -/
theorem firstMatchingPrefix_shadowed (key p q : String) (rest : List String)
    (hpq : p.data <+: q.data) (hne : q ≠ p) :
    firstMatchingPrefix key (p :: rest) ≠ q := by
  by_cases hp : hasPrefix key p = true
  · simp only [firstMatchingPrefix, hp, if_true]
    exact fun h => hne h.symm
  · have hp2 : hasPrefix key p = false := by simpa using hp
    have hstep : firstMatchingPrefix key (p :: rest) = firstMatchingPrefix key rest := by
      simp [firstMatchingPrefix, hp2]
    rw [hstep]
    intro h
    rcases firstMatchingPrefix_result key rest with h0 | ⟨-, h2⟩
    · rw [h0] at h
      subst h
      have hp0 : p.data = [] := by simpa using hpq
      exact hne (String.ext (by rw [hp0]))
    · rw [h] at h2
      exact hp ((hasPrefix_iff key p).2 (hpq.trans h2))

/-- In `supportedBoms` the name `spring-cloud` stands before `spring-cloud-azure`,
`spring-cloud-gcp` and `spring-cloud-services`, so for no key does `firstMatchingPrefix` return
one of these three names. -/
theorem supportedBoms_shadowed (key : String) :
    firstMatchingPrefix key supportedBoms ≠ "spring-cloud-azure" ∧
    firstMatchingPrefix key supportedBoms ≠ "spring-cloud-gcp" ∧
    firstMatchingPrefix key supportedBoms ≠ "spring-cloud-services" :=
  ⟨firstMatchingPrefix_shadowed key "spring-cloud" "spring-cloud-azure" _ (by decide) (by decide),
   firstMatchingPrefix_shadowed key "spring-cloud" "spring-cloud-gcp" _ (by decide) (by decide),
   firstMatchingPrefix_shadowed key "spring-cloud" "spring-cloud-services" _ (by decide)
     (by decide)⟩

/-! ## `getAction` -/

theorem getActionLoop_of_first (targetID : String) (before : List TypeValue) (t : TypeValue)
    (after : List TypeValue) (ht : t.ID = targetID) (hb : ∀ u ∈ before, u.ID ≠ targetID) :
    getActionLoop targetID (before ++ t :: after) = .ok t.Action := by
  induction before with
  | nil => simp [getActionLoop, ht]
  | cons u rest ih =>
    have hu : u.ID ≠ targetID := hb u (by simp)
    simp only [List.cons_append, getActionLoop, beq_iff_eq, hu, if_false]
    exact ih (fun r hr => hb r (by simp [hr]))

theorem getActionLoop_error_iff (targetID : String) (values : List TypeValue) :
    (∃ e, getActionLoop targetID values = .error e) ↔ ∀ t ∈ values, t.ID ≠ targetID := by
  induction values with
  | nil => simp [getActionLoop]
  | cons u rest ih =>
    by_cases hu : u.ID = targetID
    · simp [getActionLoop, hu]
    · simp [getActionLoop, hu, ih]

theorem getActionLoop_error_text (targetID : String) (values : List TypeValue) (e : String)
    (h : getActionLoop targetID values = .error e) : e = "can not determine type action" := by
  induction values with
  | nil =>
    simp only [getActionLoop, Except.error.injEq] at h
    exact h.symm
  | cons u rest ih =>
    by_cases hu : u.ID = targetID
    · simp [getActionLoop, hu] at h
    · simp only [getActionLoop, beq_iff_eq, hu, if_false] at h
      exact ih h

/-- Claim C7.  `getAction` returns the action of the first entry, in catalog order, whose id is
exactly the requested id (so with duplicate ids the first occurrence wins); it fails if and only
if no entry has that id, and the failure is the error `can not determine type action`. -/
theorem getAction_first_match (s : StarterMetadata) (targetID : String) :
    (∀ before t after, s.Values = before ++ t :: after → t.ID = targetID →
        (∀ u ∈ before, u.ID ≠ targetID) → s.getAction targetID = .ok t.Action) ∧
    ((∃ e, s.getAction targetID = .error e) ↔ ∀ t ∈ s.Values, t.ID ≠ targetID) ∧
    (s.getAction targetID = .error "can not determine type action" ↔
        ∀ t ∈ s.Values, t.ID ≠ targetID) := by
  refine ⟨?_, ?_, ?_⟩
  · intro before t after hv ht hb
    simp only [StarterMetadata.getAction, hv]
    exact getActionLoop_of_first targetID before t after ht hb
  · exact getActionLoop_error_iff targetID s.Values
  · constructor
    · intro h
      exact (getActionLoop_error_iff targetID s.Values).1 ⟨_, h⟩
    · intro h
      obtain ⟨e, he⟩ := (getActionLoop_error_iff targetID s.Values).2 h
      have := getActionLoop_error_text targetID s.Values e he
      subst this
      exact he

/-- Claim C7 on a catalog with a duplicated id and an id that differs only in case: the first
`maven-build` entry wins, and `gradle-build` is not found. -/
theorem getAction_first_match_witness :
    StarterMetadata.getAction
        ⟨[⟨"Maven-build", "/x"⟩, ⟨"maven-build", "/pom.xml"⟩, ⟨"maven-build", "/other"⟩]⟩
        "maven-build" = .ok "/pom.xml" ∧
    StarterMetadata.getAction
        ⟨[⟨"Maven-build", "/x"⟩, ⟨"maven-build", "/pom.xml"⟩, ⟨"maven-build", "/other"⟩]⟩
        "gradle-build" = .error "can not determine type action" :=
  ⟨(getAction_first_match
        ⟨[⟨"Maven-build", "/x"⟩, ⟨"maven-build", "/pom.xml"⟩, ⟨"maven-build", "/other"⟩]⟩
        "maven-build").1 [⟨"Maven-build", "/x"⟩] ⟨"maven-build", "/pom.xml"⟩
        [⟨"maven-build", "/other"⟩] rfl rfl (by decide),
   (getAction_first_match
        ⟨[⟨"Maven-build", "/x"⟩, ⟨"maven-build", "/pom.xml"⟩, ⟨"maven-build", "/other"⟩]⟩
        "gradle-build").2.2.2 (by decide)⟩

/-! ## `flatDependencies` -/

theorem flatParts_eq (dependencies parts : List String) :
    flatParts dependencies parts =
      dependencies ++ (parts.map trimSpace).filter (fun part => part ≠ "") := by
  induction parts generalizing dependencies with
  | nil => simp [flatParts]
  | cons part parts ih =>
    by_cases h : trimSpace part = ""
    · simp [flatParts, h, ih]
    · simp [flatParts, h, ih]

theorem flatItems_eq (dependencies items : List String) :
    flatItems dependencies items = dependencies ++ normalizeSpec items := by
  induction items generalizing dependencies with
  | nil => simp [flatItems, normalizeSpec]
  | cons item items ih =>
    simp only [flatItems, ih, flatParts_eq]
    simp [normalizeSpec, List.append_assoc]

/-- Claim C9.  `flatDependencies` returns exactly the concatenation, in outer list order, of
each entry split on commas, every sub-part trimmed and the sub-parts that are empty after
trimming dropped; the result of a concatenated input is the concatenation of the results, so
nothing is removed for having occurred before. -/
theorem flatDependencies_eq_normalizeSpec (c : Config) :
    c.flatDependencies = normalizeSpec c.Dependencies ∧
    ∀ xs ys : List String,
      Config.flatDependencies ⟨xs ++ ys⟩ =
        Config.flatDependencies ⟨xs⟩ ++ Config.flatDependencies ⟨ys⟩ := by
  refine ⟨?_, ?_⟩
  · simp [Config.flatDependencies, flatItems_eq]
  · intro xs ys
    simp [Config.flatDependencies, flatItems_eq, normalizeSpec]

/-- Claim C9 on the entries `a,b` and ` c `, and on entries that repeat an identifier. -/
theorem flatDependencies_eq_normalizeSpec_witness :
    Config.flatDependencies ⟨["a,b", " c "]⟩ = ["a", "b", "c"] ∧
    Config.flatDependencies ⟨["a", "b , a", ",a,"]⟩ = ["a", "b", "a", "a"] :=
  ⟨(flatDependencies_eq_normalizeSpec ⟨["a,b", " c "]⟩).1.trans (by decide),
   (flatDependencies_eq_normalizeSpec ⟨["a", "b , a", ",a,"]⟩).1.trans (by decide)⟩

/-! ## The selection loop -/

theorem selectLoop_cons_error (L : SemverLib) (c : L.Constraints) (sel : Option L.Version)
    (ver : String) (rest : List String) (e : String) (he : L.NewVersion ver = .error e) :
    selectLoop L c sel (ver :: rest) =
      .error ("invalid spring-boot version format: " ++ ver ++ ": " ++ e) := by
  simp only [selectLoop, he]

theorem selectLoop_cons_ok (L : SemverLib) (c : L.Constraints) (sel : Option L.Version)
    (ver : String) (rest : List String) (v : L.Version) (hv : L.NewVersion ver = .ok v) :
    selectLoop L c sel (ver :: rest) = selectLoop L c (selectStep L c sel v) rest := by
  simp only [selectLoop, hv]

/-- The loop stops with the format error at the first string that does not parse. -/
theorem selectLoop_first_malformed (L : SemverLib) (c : L.Constraints) (before : List String)
    (ver : String) (after : List String) (e : String)
    (hb : ∀ w ∈ before, ∃ v, L.NewVersion w = .ok v) (he : L.NewVersion ver = .error e) :
    ∀ sel, selectLoop L c sel (before ++ ver :: after) =
      .error ("invalid spring-boot version format: " ++ ver ++ ": " ++ e) := by
  induction before with
  | nil => intro sel; exact selectLoop_cons_error L c sel ver after e he
  | cons w rest ih =>
    intro sel
    obtain ⟨v, hv⟩ := hb w (by simp)
    rw [List.cons_append, selectLoop_cons_ok L c sel w _ v hv]
    exact ih (fun u hu => hb u (by simp [hu])) _

/-- When every string parses the loop ends normally. -/
theorem selectLoop_total (L : SemverLib) (c : L.Constraints) (vs : List String)
    (hp : ∀ w ∈ vs, ∃ v, L.NewVersion w = .ok v) :
    ∀ sel, ∃ r, selectLoop L c sel vs = .ok r := by
  induction vs with
  | nil => intro sel; exact ⟨sel, rfl⟩
  | cons w rest ih =>
    intro sel
    obtain ⟨v, hv⟩ := hp w (by simp)
    rw [selectLoop_cons_ok L c sel w _ v hv]
    exact ih (fun u hu => hp u (by simp [hu])) _

/-- A normal end of the loop means that every string parsed. -/
theorem selectLoop_ok_parses (L : SemverLib) (c : L.Constraints) (vs : List String) :
    ∀ sel r, selectLoop L c sel vs = .ok r → ∀ w ∈ vs, ∃ v, L.NewVersion w = .ok v := by
  induction vs with
  | nil => intro sel r _ w hw; simp at hw
  | cons u rest ih =>
    intro sel r h w hw
    cases hu : L.NewVersion u with
    | error e =>
      rw [selectLoop_cons_error L c sel u rest e hu] at h
      cases h
    | ok v =>
      rw [selectLoop_cons_ok L c sel u _ v hu] at h
      rcases List.mem_cons.1 hw with rfl | hw2
      · exact ⟨v, hu⟩
      · exact ih _ r h w hw2

/-- Running the loop over `xs ++ ys` is running it over `xs` and then over `ys`. -/
theorem selectLoop_append (L : SemverLib) (c : L.Constraints) (xs ys : List String) :
    ∀ sel r, selectLoop L c sel xs = .ok r →
      selectLoop L c sel (xs ++ ys) = selectLoop L c r ys := by
  induction xs with
  | nil =>
    intro sel r h
    simp only [selectLoop, Except.ok.injEq] at h
    subst h
    rfl
  | cons u rest ih =>
    intro sel r h
    cases hu : L.NewVersion u with
    | error e =>
      rw [selectLoop_cons_error L c sel u rest e hu] at h
      cases h
    | ok v =>
      rw [selectLoop_cons_ok L c sel u _ v hu] at h
      rw [List.cons_append, selectLoop_cons_ok L c sel u _ v hu]
      exact ih _ r h

/-- One more string at the end of the list is one more step of the loop. -/
theorem selectLoop_snoc (L : SemverLib) (c : L.Constraints) (xs : List String) (x : String)
    (sel r : Option L.Version) (v : L.Version) (h : selectLoop L c sel xs = .ok r)
    (hv : L.NewVersion x = .ok v) :
    selectLoop L c sel (xs ++ [x]) = .ok (selectStep L c r v) := by
  rw [selectLoop_append L c xs [x] sel r h, selectLoop_cons_ok L c r x [] v hv]
  rfl

/-- A normal end of the loop over `xs ++ [x]` comes from a normal end over `xs` and a parse of
`x`. -/
theorem selectLoop_snoc_inv (L : SemverLib) (c : L.Constraints) (xs : List String) (x : String)
    (sel r : Option L.Version) (h : selectLoop L c sel (xs ++ [x]) = .ok r) :
    ∃ r0 v, selectLoop L c sel xs = .ok r0 ∧ L.NewVersion x = .ok v ∧
      r = selectStep L c r0 v := by
  have hp := selectLoop_ok_parses L c _ sel r h
  obtain ⟨r0, hr0⟩ := selectLoop_total L c xs (fun w hw => hp w (by simp [hw])) sel
  obtain ⟨v, hv⟩ := hp x (by simp)
  refine ⟨r0, v, hr0, hv, ?_⟩
  rw [selectLoop_snoc L c xs x sel r0 v hr0 hv] at h
  simp only [Except.ok.injEq] at h
  exact h.symm

/-- Invariant of the loop started with nothing selected.  Nothing is selected exactly as long as
no string satisfied the constraints; a selection is the version of a string seen so far that
satisfies the constraints, and no version seen so far that satisfies them is greater. -/
theorem selectLoop_maximal (L : SemverLib) (hS : L.StrictOrder) (c : L.Constraints)
    (xs : List String) :
    ∀ r, selectLoop L c none xs = .ok r →
      (r = none → ∀ w ∈ xs, ¬ L.Satisfies c w) ∧
      (∀ x, r = some x →
        (∃ ver ∈ xs, L.NewVersion ver = .ok x ∧ L.Check c x = true) ∧
        ∀ w ∈ xs, ∀ pw, L.NewVersion w = .ok pw → L.Check c pw = true →
          L.GreaterThan pw x = false) := by
  obtain ⟨hirr, htr⟩ := hS
  induction xs using List.reverseRecOn with
  | nil =>
    intro r h
    simp only [selectLoop, Except.ok.injEq] at h
    subst h
    simp
  | append_singleton xs y ih =>
    intro r h
    obtain ⟨r0, v, hr0, hv, hr⟩ := selectLoop_snoc_inv L c xs y none r h
    obtain ⟨ih1, ih2⟩ := ih r0 hr0
    subst hr
    cases hc : L.Check c v with
    | false =>
      have hstep : selectStep L c r0 v = r0 := by simp [selectStep, hc]
      rw [hstep]
      refine ⟨?_, ?_⟩
      · intro hn w hw
        rcases List.mem_append.1 hw with hw1 | hw1
        · exact ih1 hn w hw1
        · simp only [List.mem_singleton] at hw1
          subst hw1
          rintro ⟨pw, hpw, hcw⟩
          rw [hv] at hpw
          cases hpw
          rw [hc] at hcw
          cases hcw
      · intro x hx
        obtain ⟨⟨ver, hver, hpx, hcx⟩, hmax⟩ := ih2 x hx
        refine ⟨⟨ver, by simp [hver], hpx, hcx⟩, ?_⟩
        intro w hw pw hpw hcw
        rcases List.mem_append.1 hw with hw1 | hw1
        · exact hmax w hw1 pw hpw hcw
        · simp only [List.mem_singleton] at hw1
          subst hw1
          rw [hv] at hpw
          cases hpw
          rw [hc] at hcw
          cases hcw
    | true =>
      cases r0 with
      | none =>
        have hstep : selectStep L c none v = some v := by simp [selectStep, hc]
        rw [hstep]
        refine ⟨by simp, ?_⟩
        intro x hx
        cases hx
        refine ⟨⟨y, by simp, hv, hc⟩, ?_⟩
        intro w hw pw hpw hcw
        rcases List.mem_append.1 hw with hw1 | hw1
        · exact absurd ⟨pw, hpw, hcw⟩ (ih1 rfl w hw1)
        · simp only [List.mem_singleton] at hw1
          subst hw1
          rw [hv] at hpw
          cases hpw
          exact hirr _
      | some s =>
        obtain ⟨⟨ver, hver, hps, hcs⟩, hmax⟩ := ih2 s rfl
        cases hg : L.GreaterThan v s with
        | true =>
          have hstep : selectStep L c (some s) v = some v := by simp [selectStep, hc, hg]
          rw [hstep]
          refine ⟨by simp, ?_⟩
          intro x hx
          cases hx
          refine ⟨⟨y, by simp, hv, hc⟩, ?_⟩
          intro w hw pw hpw hcw
          rcases List.mem_append.1 hw with hw1 | hw1
          · cases hgw : L.GreaterThan pw v with
            | false => rfl
            | true =>
              have := htr pw v s hgw hg
              rw [hmax w hw1 pw hpw hcw] at this
              cases this
          · simp only [List.mem_singleton] at hw1
            subst hw1
            rw [hv] at hpw
            cases hpw
            exact hirr _
        | false =>
          have hstep : selectStep L c (some s) v = some s := by simp [selectStep, hc, hg]
          rw [hstep]
          refine ⟨by simp, ?_⟩
          intro x hx
          cases hx
          refine ⟨⟨ver, by simp [hver], hps, hcs⟩, ?_⟩
          intro w hw pw hpw hcw
          rcases List.mem_append.1 hw with hw1 | hw1
          · exact hmax w hw1 pw hpw hcw
          · simp only [List.mem_singleton] at hw1
            subst hw1
            rw [hv] at hpw
            cases hpw
            exact hg

/-- Invariant of the loop started with nothing selected, for a strict weak order.  The selection
is the version of the earliest string among those seen so far that satisfy the constraints and
have no greater one: every satisfying string before it is strictly smaller. -/
theorem selectLoop_earliest (L : SemverLib) (hW : L.WeakOrder) (c : L.Constraints)
    (xs : List String) :
    ∀ r x, selectLoop L c none xs = .ok r → r = some x →
      ∃ before ver after, xs = before ++ ver :: after ∧ L.NewVersion ver = .ok x ∧
        ∀ w ∈ before, ∀ pw, L.NewVersion w = .ok pw → L.Check c pw = true →
          L.GreaterThan x pw = true := by
  obtain ⟨hS, hneg⟩ := hW
  induction xs using List.reverseRecOn with
  | nil =>
    intro r x h hx
    simp only [selectLoop, Except.ok.injEq] at h
    subst h
    cases hx
  | append_singleton xs y ih =>
    intro r x h hx
    obtain ⟨r0, v, hr0, hv, hr⟩ := selectLoop_snoc_inv L c xs y none r h
    obtain ⟨hm1, hm2⟩ := selectLoop_maximal L hS c xs r0 hr0
    have keep : r0 = some x →
        ∃ before ver after, xs ++ [y] = before ++ ver :: after ∧ L.NewVersion ver = .ok x ∧
          ∀ w ∈ before, ∀ pw, L.NewVersion w = .ok pw → L.Check c pw = true →
            L.GreaterThan x pw = true := by
      intro h0
      obtain ⟨before, ver, after, hxs, hpx, hlt⟩ := ih r0 x hr0 h0
      exact ⟨before, ver, after ++ [y], by simp [hxs], hpx, hlt⟩
    subst hr
    cases hc : L.Check c v with
    | false =>
      have hstep : selectStep L c r0 v = r0 := by simp [selectStep, hc]
      rw [hstep] at hx
      exact keep hx
    | true =>
      cases r0 with
      | none =>
        have hstep : selectStep L c none v = some v := by simp [selectStep, hc]
        rw [hstep] at hx
        cases hx
        refine ⟨xs, y, [], rfl, hv, ?_⟩
        intro w hw pw hpw hcw
        exact absurd ⟨pw, hpw, hcw⟩ (hm1 rfl w hw)
      | some s =>
        cases hg : L.GreaterThan v s with
        | true =>
          have hstep : selectStep L c (some s) v = some v := by simp [selectStep, hc, hg]
          rw [hstep] at hx
          have hvx : v = x := Option.some.inj hx
          subst hvx
          refine ⟨xs, y, [], rfl, hv, ?_⟩
          intro w hw pw hpw hcw
          rcases hneg v pw s hg with h1 | h1
          · exact h1
          · rw [(hm2 s rfl).2 w hw pw hpw hcw] at h1
            cases h1
        | false =>
          have hstep : selectStep L c (some s) v = some s := by simp [selectStep, hc, hg]
          rw [hstep] at hx
          exact keep hx

/-! ## The concrete library satisfies the laws -/

namespace Semver

theorem ordLaws_nat : OrdLaws (fun a b : Nat => compare a b) := by
  refine ⟨?_, ?_, ?_⟩
  · intro a b
    rcases Nat.lt_trichotomy a b with h | h | h
    · rw [compare_lt_iff_lt.2 h, compare_gt_iff_gt.2 h]; rfl
    · subst h; rw [compare_eq_iff_eq.2 rfl]; rfl
    · rw [compare_lt_iff_lt.2 h, compare_gt_iff_gt.2 h]; rfl
  · intro a b c h1 h2
    rw [compare_lt_iff_lt] at *
    omega
  · intro a b c h
    rw [compare_eq_iff_eq] at h
    subst h
    rfl

theorem OrdLaws.comap {α β : Type} {cmp : β → β → Ordering} (h : OrdLaws cmp) (f : α → β) :
    OrdLaws (fun a b => cmp (f a) (f b)) :=
  ⟨fun _ _ => h.swap _ _, fun _ _ _ => h.lt_trans _ _ _, fun _ _ _ => h.eq_left _ _ _⟩

theorem OrdLaws.gt_of_lt {α : Type} {cmp : α → α → Ordering} (h : OrdLaws cmp) (a b : α)
    (hab : cmp a b = .lt) : cmp b a = .gt := by
  rw [h.swap a b, hab]; rfl

theorem OrdLaws.lt_of_gt {α : Type} {cmp : α → α → Ordering} (h : OrdLaws cmp) (a b : α)
    (hab : cmp a b = .gt) : cmp b a = .lt := by
  rw [h.swap a b, hab]; rfl

theorem OrdLaws.eq_symm {α : Type} {cmp : α → α → Ordering} (h : OrdLaws cmp) (a b : α)
    (hab : cmp a b = .eq) : cmp b a = .eq := by
  rw [h.swap a b, hab]; rfl

theorem OrdLaws.refl {α : Type} {cmp : α → α → Ordering} (h : OrdLaws cmp) (a : α) :
    cmp a a = .eq := by
  have := h.swap a a
  cases hc : cmp a a <;> rw [hc] at this <;> first | rfl | cases this

theorem OrdLaws.lt_of_lt_of_eq {α : Type} {cmp : α → α → Ordering} (h : OrdLaws cmp)
    (a b c : α) (hab : cmp a b = .lt) (hbc : cmp b c = .eq) : cmp a c = .lt := by
  have h1 : cmp b a = cmp c a := h.eq_left b c a hbc
  rw [h.gt_of_lt a b hab] at h1
  exact h.lt_of_gt c a h1.symm

theorem OrdLaws.andThen {α : Type} {c1 c2 : α → α → Ordering} (h1 : OrdLaws c1)
    (h2 : OrdLaws c2) : OrdLaws (fun a b => (c1 a b).then (c2 a b)) := by
  refine ⟨?_, ?_, ?_⟩
  · intro a b
    show (c1 b a).then (c2 b a) = ((c1 a b).then (c2 a b)).swap
    rw [h1.swap a b, h2.swap a b]
    cases c1 a b <;> cases c2 a b <;> rfl
  · intro a b c hab hbc
    simp only at hab hbc ⊢
    cases e1 : c1 a b with
    | gt => rw [e1] at hab; cases hab
    | lt =>
      cases e2 : c1 b c with
      | gt => rw [e2] at hbc; cases hbc
      | lt => rw [h1.lt_trans a b c e1 e2]; rfl
      | eq => rw [h1.lt_of_lt_of_eq a b c e1 e2]; rfl
    | eq =>
      rw [e1] at hab
      rw [h1.eq_left a b c e1]
      cases e2 : c1 b c with
      | gt => rw [e2] at hbc; cases hbc
      | lt => rfl
      | eq =>
        rw [e2] at hbc
        exact h2.lt_trans a b c hab hbc
  · intro a b c hab
    simp only at hab ⊢
    cases e1 : c1 a b with
    | gt => rw [e1] at hab; cases hab
    | lt => rw [e1] at hab; cases hab
    | eq =>
      rw [e1] at hab
      rw [h1.eq_left a b c e1, h2.eq_left a b c hab]

theorem cmpLex_cons {α : Type} (cmp : α → α → Ordering) (a b : α) (as bs : List α) :
    cmpLex cmp (a :: as) (b :: bs) = (cmp a b).then (cmpLex cmp as bs) := rfl

theorem ordLaws_cmpLex {α : Type} {cmp : α → α → Ordering} (h : OrdLaws cmp) :
    OrdLaws (cmpLex cmp) := by
  have hswap : ∀ xs ys : List α, cmpLex cmp ys xs = (cmpLex cmp xs ys).swap := by
    intro xs
    induction xs with
    | nil => intro ys; cases ys <;> rfl
    | cons a as ih =>
      intro ys
      cases ys with
      | nil => rfl
      | cons b bs =>
        rw [cmpLex_cons, cmpLex_cons, h.swap a b, ih bs]
        cases cmp a b <;> cases cmpLex cmp as bs <;> rfl
  have heq : ∀ xs ys zs : List α, cmpLex cmp xs ys = .eq →
      cmpLex cmp xs zs = cmpLex cmp ys zs := by
    intro xs
    induction xs with
    | nil =>
      intro ys zs hxy
      cases ys with
      | nil => rfl
      | cons b bs => cases hxy
    | cons a as ih =>
      intro ys zs hxy
      cases ys with
      | nil => cases hxy
      | cons b bs =>
        rw [cmpLex_cons] at hxy
        cases zs with
        | nil => rfl
        | cons c cs =>
          rw [cmpLex_cons, cmpLex_cons]
          cases e1 : cmp a b with
          | lt => rw [e1] at hxy; cases hxy
          | gt => rw [e1] at hxy; cases hxy
          | eq =>
            rw [e1] at hxy
            rw [h.eq_left a b c e1, ih bs cs hxy]
  have hlt : ∀ xs ys zs : List α, cmpLex cmp xs ys = .lt → cmpLex cmp ys zs = .lt →
      cmpLex cmp xs zs = .lt := by
    intro xs
    induction xs with
    | nil =>
      intro ys zs hxy hyz
      cases ys with
      | nil => cases hxy
      | cons b bs =>
        cases zs with
        | nil => cases hyz
        | cons c cs => rfl
    | cons a as ih =>
      intro ys zs hxy hyz
      cases ys with
      | nil => cases hxy
      | cons b bs =>
        cases zs with
        | nil => cases hyz
        | cons c cs =>
          rw [cmpLex_cons] at hxy hyz ⊢
          cases e1 : cmp a b with
          | gt => rw [e1] at hxy; cases hxy
          | lt =>
            cases e2 : cmp b c with
            | gt => rw [e2] at hyz; cases hyz
            | lt => rw [h.lt_trans a b c e1 e2]; rfl
            | eq => rw [h.lt_of_lt_of_eq a b c e1 e2]; rfl
          | eq =>
            rw [e1] at hxy
            rw [h.eq_left a b c e1]
            cases e2 : cmp b c with
            | gt => rw [e2] at hyz; cases hyz
            | lt => rfl
            | eq =>
              rw [e2] at hyz
              exact ih bs cs hxy hyz
  exact ⟨hswap, hlt, heq⟩

theorem ordLaws_cmpChar : OrdLaws cmpChar :=
  ordLaws_nat.comap Char.toNat

theorem ordLaws_cmpPreId : OrdLaws cmpPreId := by
  have hN := ordLaws_nat
  have hL := ordLaws_cmpLex ordLaws_cmpChar
  refine ⟨?_, ?_, ?_⟩
  · intro a b
    cases a <;> cases b
    · exact hN.swap _ _
    · rfl
    · rfl
    · exact hL.swap _ _
  · intro a b c hab hbc
    cases a <;> cases b <;> cases c <;>
      first
      | exact hN.lt_trans _ _ _ hab hbc
      | exact hL.lt_trans _ _ _ hab hbc
      | rfl
      | exact Ordering.noConfusion hab
      | exact Ordering.noConfusion hbc
  · intro a b c hab
    cases a <;> cases b <;> cases c <;>
      first
      | exact hN.eq_left _ _ _ hab
      | exact hL.eq_left _ _ _ hab
      | rfl
      | exact Ordering.noConfusion hab

theorem ordLaws_cmpPre : OrdLaws cmpPre := by
  have hL := ordLaws_cmpLex ordLaws_cmpPreId
  refine ⟨?_, ?_, ?_⟩
  · intro a b
    cases a <;> cases b
    · rfl
    · rfl
    · rfl
    · exact hL.swap _ _
  · intro a b c hab hbc
    cases a <;> cases b <;> cases c <;>
      first
      | exact hL.lt_trans _ _ _ hab hbc
      | rfl
      | exact Ordering.noConfusion hab
      | exact Ordering.noConfusion hbc
  · intro a b c hab
    cases a <;> cases b <;> cases c <;>
      first
      | exact hL.eq_left _ _ _ hab
      | rfl
      | exact Ordering.noConfusion hab

/-- The model's `Compare` is a total preorder on versions. -/
theorem ordLaws_Compare : OrdLaws Compare :=
  (ordLaws_nat.comap Version.major).andThen
    ((ordLaws_nat.comap Version.minor).andThen
      ((ordLaws_nat.comap Version.patch).andThen (ordLaws_cmpPre.comap Version.pre)))

theorem GreaterThan_iff (a b : Version) : GreaterThan a b = true ↔ Compare a b = .gt := by
  simp [GreaterThan]

/-- The model keeps the original string. -/
theorem lib_keepsOriginal : lib.KeepsOriginal := by
  intro s v h
  change NewVersion s = .ok v at h
  unfold NewVersion at h
  split at h
  · cases h
  · unfold versionOfSyntax at h
    split at h
    · cases h
    · split at h
      · cases h
      · cases h
        rfl

/-- The model's `GreaterThan` is a strict weak order. -/
theorem lib_weakOrder : lib.WeakOrder := by
  have hC := ordLaws_Compare
  refine ⟨⟨?_, ?_⟩, ?_⟩
  · intro a
    change GreaterThan a a = false
    simp [GreaterThan, hC.refl a]
  · intro a b c hab hbc
    change GreaterThan a b = true at hab
    change GreaterThan b c = true at hbc
    change GreaterThan a c = true
    rw [GreaterThan_iff] at hab hbc
    rw [GreaterThan_iff]
    exact hC.gt_of_lt c a (hC.lt_trans c b a (hC.lt_of_gt b c hbc) (hC.lt_of_gt a b hab))
  · intro a b c hac
    change GreaterThan a c = true at hac
    change GreaterThan a b = true ∨ GreaterThan b c = true
    rw [GreaterThan_iff] at hac
    rw [GreaterThan_iff, GreaterThan_iff]
    cases e : Compare a b with
    | gt => exact Or.inl rfl
    | eq =>
      right
      rw [← hC.eq_left a b c e]
      exact hac
    | lt =>
      right
      exact hC.gt_of_lt c b (hC.lt_trans c a b (hC.lt_of_gt a c hac) e)

end Semver

/-! ## Version resolution -/

theorem findCurrentLoop_none (rs : List Release) (h : ∀ r ∈ rs, r.Current = false) :
    findCurrentLoop rs = "" := by
  induction rs with
  | nil => rfl
  | cons r rest ih =>
    have hr : r.Current = false := h r (by simp)
    simp only [findCurrentLoop, hr]
    exact ih (fun u hu => h u (by simp [hu]))

theorem findCurrentLoop_first (before : List Release) (r : Release) (after : List Release)
    (hr : r.Current = true) (hb : ∀ u ∈ before, u.Current = false) :
    findCurrentLoop (before ++ r :: after) = r.Version := by
  induction before with
  | nil => simp [findCurrentLoop, hr]
  | cons u rest ih =>
    have hu : u.Current = false := hb u (by simp)
    simp only [List.cons_append, findCurrentLoop, hu]
    exact ih (fun w hw => hb w (by simp [hw]))

theorem collectLoop_eq (versions : List String) (rs : List Release) :
    collectLoop versions rs = versions ++ rs.map Release.Version := by
  induction rs generalizing versions with
  | nil => simp [collectLoop]
  | cons r rest ih => simp [collectLoop, ih]

/-- The candidates are the version strings of the releases, in catalog order; an empty catalog
is an error. -/
theorem collectVersionCandidates_eq (b : BootMetadata) :
    b.collectVersionCandidates =
      if b.Releases = [] then .error "no valid spring-boot versions found"
      else .ok (b.Releases.map Release.Version) := by
  simp only [BootMetadata.collectVersionCandidates, collectLoop_eq, List.nil_append,
    List.length_map]
  cases b.Releases <;> simp

/-- With a non-empty effective selector that parses and a non-empty catalog,
`determineBootVersion` is `selectLatestMatchingVersion` on the catalog's version strings. -/
theorem determineBootVersion_eq_select (L : SemverLib) (b : BootMetadata) (target : String)
    (c : L.Constraints) (ht : b.substituteTarget target ≠ "") (hne : b.Releases ≠ [])
    (hc : L.NewConstraint (b.substituteTarget target) = .ok c) :
    b.determineBootVersion L target =
      selectLatestMatchingVersion L (b.Releases.map Release.Version) c := by
  simp only [BootMetadata.determineBootVersion, beq_iff_eq, ht, if_false,
    collectVersionCandidates_eq, hne, hc]
  cases selectLatestMatchingVersion L (b.Releases.map Release.Version) c <;> rfl

theorem substituteTarget_of_ne (b : BootMetadata) (target : String) (h : target ≠ "") :
    b.substituteTarget target = target := by
  simp [BootMetadata.substituteTarget, h]

theorem substituteTarget_empty (b : BootMetadata) :
    b.substituteTarget "" = b.findCurrentReleaseVersion := by
  simp [BootMetadata.substituteTarget]

/-- A successful selection returns the original string of a catalog entry that satisfies the
constraints and has no greater satisfying entry. -/
theorem selectLatest_ok_spec (L : SemverLib) (hK : L.KeepsOriginal) (hS : L.StrictOrder)
    (versions : List String) (c : L.Constraints) (s : String)
    (h : selectLatestMatchingVersion L versions c = .ok s) :
    s ∈ versions ∧ L.Satisfies c s ∧ ∀ w ∈ versions, L.Satisfies c w → ¬ L.Above w s := by
  unfold selectLatestMatchingVersion at h
  split at h
  · cases h
  · next x hx =>
    simp only [Except.ok.injEq] at h
    obtain ⟨⟨ver, hver, hpx, hcx⟩, hmax⟩ := (selectLoop_maximal L hS c versions _ hx).2 x rfl
    have hs : s = ver := by rw [← h]; exact hK ver x hpx
    subst hs
    refine ⟨hver, ⟨x, hpx, hcx⟩, ?_⟩
    rintro w hw ⟨pw, hpw, hcw⟩ ⟨va, vb, hva, hvb, hg⟩
    rw [hpw] at hva
    rw [hpx] at hvb
    cases hva
    cases hvb
    rw [hmax w hw pw hpw hcw] at hg
    cases hg
  · cases h

/-- The selection succeeds when every catalog string parses and one of them satisfies the
constraints. -/
theorem selectLatest_succeeds (L : SemverLib) (hS : L.StrictOrder)
    (versions : List String) (c : L.Constraints)
    (hp : ∀ w ∈ versions, ∃ v, L.NewVersion w = .ok v)
    (hsat : ∃ w ∈ versions, L.Satisfies c w) :
    ∃ x, selectLoop L c none versions = .ok (some x) ∧
      selectLatestMatchingVersion L versions c = .ok (L.Original x) := by
  obtain ⟨r, hr⟩ := selectLoop_total L c versions hp none
  cases r with
  | none =>
    obtain ⟨w, hw, hws⟩ := hsat
    exact absurd hws ((selectLoop_maximal L hS c versions _ hr).1 rfl w hw)
  | some x =>
    refine ⟨x, hr, ?_⟩
    simp only [selectLatestMatchingVersion, hr]

/-- The selection fails with the no-match error when every catalog string parses and none
satisfies the constraints. -/
theorem selectLatest_no_match (L : SemverLib) (versions : List String) (c : L.Constraints)
    (hp : ∀ w ∈ versions, ∃ v, L.NewVersion w = .ok v)
    (hnone : ∀ w ∈ versions, ¬ L.Satisfies c w) :
    selectLatestMatchingVersion L versions c = .error (noMatchingError L c versions) := by
  have key : ∀ vs : List String, (∀ w ∈ vs, ∃ v, L.NewVersion w = .ok v) →
      (∀ w ∈ vs, ¬ L.Satisfies c w) → selectLoop L c none vs = .ok none := by
    intro vs
    induction vs with
    | nil => intro _ _; rfl
    | cons w rest ih =>
      intro hp1 hn1
      obtain ⟨v, hv⟩ := hp1 w (by simp)
      have hcv : L.Check c v = false := by
        cases hcv : L.Check c v with
        | false => rfl
        | true => exact absurd ⟨v, hv, hcv⟩ (hn1 w (by simp))
      rw [selectLoop_cons_ok L c none w rest v hv]
      have hstep : selectStep L c none v = none := by simp [selectStep, hcv]
      rw [hstep]
      exact ih (fun u hu => hp1 u (by simp [hu])) (fun u hu => hn1 u (by simp [hu]))
  simp only [selectLatestMatchingVersion, key versions hp hnone]

/-- Some string of a list does not parse: there is a first one. -/
theorem exists_first_malformed (L : SemverLib) (vs : List String)
    (h : ∃ w ∈ vs, ∃ e, L.NewVersion w = .error e) :
    ∃ before ver after e, vs = before ++ ver :: after ∧
      (∀ w ∈ before, ∃ v, L.NewVersion w = .ok v) ∧ L.NewVersion ver = .error e := by
  induction vs with
  | nil => obtain ⟨w, hw, -⟩ := h; simp at hw
  | cons u rest ih =>
    cases hu : L.NewVersion u with
    | error e => exact ⟨[], u, rest, e, rfl, by simp, hu⟩
    | ok v =>
      obtain ⟨w, hw, e, he⟩ := h
      rcases List.mem_cons.1 hw with rfl | hw2
      · rw [hu] at he; cases he
      · obtain ⟨before, ver, after, e2, hrest, hb, hver⟩ := ih ⟨w, hw2, e, he⟩
        refine ⟨u :: before, ver, after, e2, by simp [hrest], ?_, hver⟩
        intro x hx
        rcases List.mem_cons.1 hx with rfl | hx2
        · exact ⟨v, hu⟩
        · exact hb x hx2

/-! ## `strings.Join` and containment -/

theorem stringsContains_refl (s : String) : stringsContains s s :=
  List.infix_refl _

theorem stringsContains_append_left (s t sub : String) (h : stringsContains s sub) :
    stringsContains (s ++ t) sub := by
  unfold stringsContains at *
  rw [String.data_append]
  exact h.trans (List.infix_append' [] s.data t.data)

theorem stringsContains_append_right (s t sub : String) (h : stringsContains t sub) :
    stringsContains (s ++ t) sub := by
  unfold stringsContains at *
  rw [String.data_append]
  exact h.trans (List.suffix_append s.data t.data).isInfix

theorem intercalate_go_contains (sep : String) (elems : List String) :
    ∀ acc sub : String, (stringsContains acc sub ∨ sub ∈ elems) →
      stringsContains (String.intercalate.go acc sep elems) sub := by
  induction elems with
  | nil =>
    intro acc sub h
    rcases h with h | h
    · exact h
    · simp at h
  | cons a rest ih =>
    intro acc sub h
    show stringsContains (String.intercalate.go (acc ++ sep ++ a) sep rest) sub
    apply ih
    rcases h with h | h
    · left
      exact stringsContains_append_left _ _ _ (stringsContains_append_left _ _ _ h)
    · rcases List.mem_cons.1 h with rfl | h2
      · left
        exact stringsContains_append_right _ _ _ (stringsContains_refl _)
      · right
        exact h2

/-- Every element occurs in the joined string. -/
theorem stringsJoin_contains (elems : List String) (sep sub : String) (h : sub ∈ elems) :
    stringsContains (stringsJoin elems sep) sub := by
  cases elems with
  | nil => simp at h
  | cons a rest =>
    show stringsContains (String.intercalate.go a sep rest) sub
    apply intercalate_go_contains
    rcases List.mem_cons.1 h with rfl | h2
    · exact Or.inl (stringsContains_refl _)
    · exact Or.inr h2

/-! ## The selection as the earliest maximum -/

/-- An element of a list has a first occurrence. -/
theorem exists_first_occurrence (a : String) (l : List String) (h : a ∈ l) :
    ∃ front back, l = front ++ a :: back ∧ a ∉ front := by
  induction l with
  | nil => simp at h
  | cons x rest ih =>
    by_cases hx : x = a
    · exact ⟨[], rest, by simp [hx], by simp⟩
    · have h2 : a ∈ rest := by
        rcases List.mem_cons.1 h with h1 | h1
        · exact absurd h1.symm hx
        · exact h1
      obtain ⟨front, back, hl, hn⟩ := ih h2
      refine ⟨x :: front, back, by simp [hl], ?_⟩
      simp only [List.mem_cons, not_or]
      exact ⟨fun h3 => hx h3.symm, hn⟩

/-- When every catalog string parses and one satisfies the constraints, the selection is the
earliest entry that satisfies them and has no greater satisfying entry. -/
theorem selectLatest_earliest_spec (L : SemverLib) (hK : L.KeepsOriginal) (hW : L.WeakOrder)
    (versions : List String) (c : L.Constraints)
    (hp : ∀ w ∈ versions, ∃ v, L.NewVersion w = .ok v)
    (hsat : ∃ w ∈ versions, L.Satisfies c w) :
    ∃ before ver after, versions = before ++ ver :: after ∧ L.Satisfies c ver ∧
      (∀ w ∈ versions, L.Satisfies c w → ¬ L.Above w ver) ∧
      (∀ w ∈ before, L.Satisfies c w → L.Above ver w) ∧
      selectLatestMatchingVersion L versions c = .ok ver := by
  obtain ⟨x, hx, hres⟩ := selectLatest_succeeds L hW.1 versions c hp hsat
  obtain ⟨before, ver, after, hvs, hpx, hlt⟩ :=
    selectLoop_earliest L hW c versions _ x hx rfl
  have hver : L.Original x = ver := hK ver x hpx
  rw [hver] at hres
  obtain ⟨-, hs, hmax⟩ := selectLatest_ok_spec L hK hW.1 versions c ver hres
  refine ⟨before, ver, after, hvs, hs, hmax, ?_, hres⟩
  rintro w hw ⟨pw, hpw, hcw⟩
  exact ⟨x, pw, hpx, hpw, hlt w hw pw hpw hcw⟩

/-- When every catalog string parses, the selection is the string `V` exactly when `V` is in
the catalog and satisfies the constraints, no satisfying entry is strictly greater than `V`, and
every satisfying entry before the first occurrence of `V` is strictly smaller than `V`. -/
theorem selectLatest_eq_iff (L : SemverLib) (hK : L.KeepsOriginal) (hW : L.WeakOrder)
    (versions : List String) (c : L.Constraints) (V : String)
    (hp : ∀ w ∈ versions, ∃ v, L.NewVersion w = .ok v) :
    selectLatestMatchingVersion L versions c = .ok V ↔
      V ∈ versions ∧ L.Satisfies c V ∧
      (∀ w ∈ versions, L.Satisfies c w → ¬ L.Above w V) ∧
      (∀ front back, versions = front ++ V :: back → V ∉ front →
        ∀ w ∈ front, L.Satisfies c w → L.Above V w) := by
  constructor
  · intro h
    obtain ⟨hin, hs, hmax⟩ := selectLatest_ok_spec L hK hW.1 versions c V h
    refine ⟨hin, hs, hmax, ?_⟩
    intro front back hfb hnot w hw hws
    obtain ⟨before, ver, after, hvs, -, -, hlt, hres⟩ :=
      selectLatest_earliest_spec L hK hW versions c hp ⟨V, hin, hs⟩
    rw [h] at hres
    have hv : V = ver := Except.ok.inj hres
    subst hv
    have hsplit := hfb.symm.trans hvs
    rcases List.append_eq_append_iff.1 hsplit with ⟨m, hb, hm⟩ | ⟨m, hf, hm⟩
    · exact hlt w (by rw [hb]; exact List.mem_append_left _ hw) hws
    · cases m with
      | nil =>
        rw [List.append_nil] at hf
        rw [hf] at hw
        exact hlt w hw hws
      | cons y m2 =>
        rw [List.cons_append] at hm
        have hy : V = y := (List.cons.inj hm).1
        exact absurd (by rw [hf, ← hy]; simp) hnot
  · rintro ⟨hin, hs, hmax, hfirst⟩
    obtain ⟨before, ver, after, hvs, hsv, hmaxv, hlt, hres⟩ :=
      selectLatest_earliest_spec L hK hW versions c hp ⟨V, hin, hs⟩
    obtain ⟨front, back, hfb, hnot⟩ := exists_first_occurrence V versions hin
    have hverin : ver ∈ versions := by rw [hvs]; simp
    have hsplit := hfb.symm.trans hvs
    have hVver : V = ver := by
      rcases List.append_eq_append_iff.1 hsplit with ⟨m, hb, hm⟩ | ⟨m, hf, hm⟩
      · cases m with
        | nil => exact (List.cons.inj hm).1
        | cons y m2 =>
          rw [List.cons_append] at hm
          have hy : V = y := (List.cons.inj hm).1
          have hVb : V ∈ before := by rw [hb, ← hy]; simp
          exact absurd (hlt V hVb hs) (hmax ver hverin hsv)
      · cases m with
        | nil => exact ((List.cons.inj hm).1).symm
        | cons y m2 =>
          rw [List.cons_append] at hm
          have hy : ver = y := (List.cons.inj hm).1
          have hvf : ver ∈ front := by rw [hf, ← hy]; simp
          exact absurd (hfirst front back hfb hnot ver hvf hsv) (hmaxv V hin hs)
    rw [hVver]
    exact hres

/-- The first occurrence of an element in a list is unique. -/
theorem first_occurrence_unique (a : String) (f1 b1 f2 b2 : List String)
    (h : f1 ++ a :: b1 = f2 ++ a :: b2) (h1 : a ∉ f1) (h2 : a ∉ f2) : f1 = f2 := by
  rcases List.append_eq_append_iff.1 h with ⟨m, hb, hm⟩ | ⟨m, hf, hm⟩
  · cases m with
    | nil => simpa using hb.symm
    | cons y m2 =>
      rw [List.cons_append] at hm
      have hy : a = y := (List.cons.inj hm).1
      exact absurd (by rw [hb, ← hy]; simp) h2
  · cases m with
    | nil => simpa using hf
    | cons y m2 =>
      rw [List.cons_append] at hm
      have hy : a = y := (List.cons.inj hm).1
      exact absurd (by rw [hf, ← hy]; simp) h1

/-- A successful selection means that every catalog string parsed. -/
theorem selectLatest_ok_parses (L : SemverLib) (versions : List String) (c : L.Constraints)
    (s : String) (h : selectLatestMatchingVersion L versions c = .ok s) :
    ∀ w ∈ versions, ∃ v, L.NewVersion w = .ok v := by
  unfold selectLatestMatchingVersion at h
  split at h
  · cases h
  · next x hx => exact selectLoop_ok_parses L c versions none _ hx
  · cases h

/-! ## The resolution claims -/

/-- Claim C1.  When `selectLatestMatchingVersion` succeeds with the string `s`, then `s` is the
version string of a catalog entry exactly as the catalog spells it, that entry's parsed version
satisfies the constraints, and no catalog entry that satisfies the constraints is strictly
greater.  (A success already means that every catalog string parsed.) -/
theorem selectLatestMatchingVersion_sound (L : SemverLib) (hK : L.KeepsOriginal)
    (hS : L.StrictOrder) (versions : List String) (c : L.Constraints) (s : String)
    (h : selectLatestMatchingVersion L versions c = .ok s) :
    s ∈ versions ∧ L.Satisfies c s ∧ ∀ w ∈ versions, L.Satisfies c w → ¬ L.Above w s :=
  selectLatest_ok_spec L hK hS versions c s h

/-- Claim C1 on the candidates `1.2.3`, `1.2.4`, `2.0.0` and the constraint `>=1.0.0,<2.0.0`:
the selection is `1.2.4`. -/
theorem selectLatestMatchingVersion_sound_witness :
    ∃ c, Semver.lib.NewConstraint ">=1.0.0,<2.0.0" = .ok c ∧
      selectLatestMatchingVersion Semver.lib ["1.2.3", "1.2.4", "2.0.0"] c = .ok "1.2.4" ∧
      ("1.2.4" ∈ ["1.2.3", "1.2.4", "2.0.0"] ∧ Semver.lib.Satisfies c "1.2.4" ∧
        ∀ w ∈ ["1.2.3", "1.2.4", "2.0.0"], Semver.lib.Satisfies c w →
          ¬ Semver.lib.Above w "1.2.4") :=
  ⟨_, rfl, rfl,
    selectLatestMatchingVersion_sound Semver.lib Semver.lib_keepsOriginal Semver.lib_weakOrder.1
      ["1.2.3", "1.2.4", "2.0.0"] _ "1.2.4" rfl⟩

/-- Claim C10.  When every catalog string parses and some entry satisfies the constraints,
`selectLatestMatchingVersion` returns the string of the earliest catalog entry that satisfies the
constraints and has no greater satisfying entry: every satisfying entry before it is strictly
smaller, so among entries that compare equal to the maximum the first one is returned.  A
candidate that is not strictly greater than the current selection leaves it in place. -/
theorem selectLatestMatchingVersion_earliest (L : SemverLib) (hK : L.KeepsOriginal)
    (hW : L.WeakOrder) (versions : List String) (c : L.Constraints)
    (hp : ∀ w ∈ versions, ∃ v, L.NewVersion w = .ok v)
    (hsat : ∃ w ∈ versions, L.Satisfies c w) :
    ∃ before ver after, versions = before ++ ver :: after ∧ L.Satisfies c ver ∧
      (∀ w ∈ versions, L.Satisfies c w → ¬ L.Above w ver) ∧
      (∀ w ∈ before, L.Satisfies c w → L.Above ver w) ∧
      selectLatestMatchingVersion L versions c = .ok ver ∧
      ∀ sel v, L.GreaterThan v sel = false → selectStep L c (some sel) v = some sel := by
  obtain ⟨x, hx, hres⟩ := selectLatest_succeeds L hW.1 versions c hp hsat
  obtain ⟨before, ver, after, hvs, hpx, hlt⟩ :=
    selectLoop_earliest L hW c versions _ x hx rfl
  have hver : L.Original x = ver := hK ver x hpx
  rw [hver] at hres
  obtain ⟨-, hs, hmax⟩ := selectLatest_ok_spec L hK hW.1 versions c ver hres
  refine ⟨before, ver, after, hvs, hs, hmax, ?_, hres, ?_⟩
  · rintro w hw ⟨pw, hpw, hcw⟩
    exact ⟨x, pw, hpx, hpw, hlt w hw pw hpw hcw⟩
  · intro sel v hg
    simp [selectStep, hg]

/-- Claim C10 on a catalog whose three greatest matching entries differ only in a leading `v`
and in build metadata: the first of them is returned. -/
theorem selectLatestMatchingVersion_earliest_witness :
    ∃ c, Semver.lib.NewConstraint ">=1.0.0" = .ok c ∧
      selectLatestMatchingVersion Semver.lib ["1.2.3", "v1.3.0", "1.3.0+build.7", "1.3.0"] c
        = .ok "v1.3.0" ∧
      ∃ before ver after,
        ["1.2.3", "v1.3.0", "1.3.0+build.7", "1.3.0"] = before ++ ver :: after ∧
        Semver.lib.Satisfies c ver ∧
        (∀ w ∈ ["1.2.3", "v1.3.0", "1.3.0+build.7", "1.3.0"],
          Semver.lib.Satisfies c w → ¬ Semver.lib.Above w ver) ∧
        (∀ w ∈ before, Semver.lib.Satisfies c w → Semver.lib.Above ver w) ∧
        selectLatestMatchingVersion Semver.lib
          ["1.2.3", "v1.3.0", "1.3.0+build.7", "1.3.0"] c = .ok ver ∧
        ∀ sel v, Semver.lib.GreaterThan v sel = false →
          selectStep Semver.lib c (some sel) v = some sel :=
  ⟨_, rfl, rfl,
    selectLatestMatchingVersion_earliest Semver.lib Semver.lib_keepsOriginal
      Semver.lib_weakOrder ["1.2.3", "v1.3.0", "1.3.0+build.7", "1.3.0"] _
      (by
        intro w hw
        simp only [List.mem_cons, List.mem_singleton, List.not_mem_nil, or_false] at hw
        rcases hw with rfl | rfl | rfl | rfl <;> exact ⟨_, rfl⟩)
      ⟨"1.2.3", by simp, _, rfl, rfl⟩⟩

/-- Claim C5.  In a catalog where no release is flagged current, `determineBootVersion` with the
empty selector fails with the error `can not determine spring-boot version`; no version is
returned. -/
theorem determineBootVersion_no_current (L : SemverLib) (b : BootMetadata)
    (h : ∀ r ∈ b.Releases, r.Current = false) :
    b.determineBootVersion L "" = .error "can not determine spring-boot version" := by
  have hf : b.substituteTarget "" = "" := by
    rw [substituteTarget_empty]
    exact findCurrentLoop_none b.Releases h
  simp [BootMetadata.determineBootVersion, hf]

/-- Claim C5 on a two-release catalog without a current release. -/
theorem determineBootVersion_no_current_witness :
    (∀ r ∈ (⟨[⟨"3.0.9", false⟩, ⟨"3.1.0", false⟩]⟩ : BootMetadata).Releases,
        r.Current = false) ∧
    BootMetadata.determineBootVersion Semver.lib ⟨[⟨"3.0.9", false⟩, ⟨"3.1.0", false⟩]⟩ ""
      = .error "can not determine spring-boot version" :=
  ⟨by decide,
   determineBootVersion_no_current Semver.lib ⟨[⟨"3.0.9", false⟩, ⟨"3.1.0", false⟩]⟩
     (by decide)⟩

/-- Claim C6, as the code has it.  For a non-empty catalog and a non-empty selector that the
library does not parse as a constraint, `determineBootVersion` fails with the error
`invalid spring-boot constraint format`, naming the selector and the library's reason; this
holds whatever the catalog's version strings are. -/
theorem determineBootVersion_invalid_constraint (L : SemverLib) (b : BootMetadata)
    (target e : String) (hne : b.Releases ≠ []) (ht : target ≠ "")
    (hc : L.NewConstraint target = .error e) :
    b.determineBootVersion L target =
      .error ("invalid spring-boot constraint format: " ++ target ++ ": " ++ e) := by
  have hs := substituteTarget_of_ne b target ht
  simp only [BootMetadata.determineBootVersion, hs, beq_iff_eq, ht, if_false,
    collectVersionCandidates_eq, hne, hc]

/-- Claim C6, as the code has it, on a one-release catalog and the selector `not-a-range`. -/
theorem determineBootVersion_invalid_constraint_witness :
    BootMetadata.determineBootVersion Semver.lib ⟨[⟨"3.1.0", true⟩]⟩ "not-a-range"
      = .error ("invalid spring-boot constraint format: " ++ "not-a-range" ++ ": " ++
          "improper constraint: not-a-range") :=
  determineBootVersion_invalid_constraint Semver.lib ⟨[⟨"3.1.0", true⟩]⟩ "not-a-range"
    "improper constraint: not-a-range" (by decide) (by decide) rfl

/-- Claim C6 fails on the empty catalog: the selector `not-a-range` does not parse as a
constraint, and the result is the empty-catalog error, not the constraint-format error. -/
theorem determineBootVersion_invalid_constraint_counterexample :
    Semver.lib.NewConstraint "not-a-range" = .error "improper constraint: not-a-range" ∧
    BootMetadata.determineBootVersion Semver.lib ⟨[]⟩ "not-a-range"
      = .error "no valid spring-boot versions found" :=
  ⟨rfl, rfl⟩

/-- Claim C3, as the code has it.  When some catalog version string does not parse and the
selector (after the substitution of the current release for an empty one) is non-empty and
parses as a constraint, `determineBootVersion` fails with the error
`invalid spring-boot version format`, naming the first catalog string that does not parse and the
library's reason, whatever the other entries are. -/
theorem determineBootVersion_malformed_entry (L : SemverLib) (b : BootMetadata)
    (target : String) (c : L.Constraints)
    (hbad : ∃ r ∈ b.Releases, ∃ e, L.NewVersion r.Version = .error e)
    (ht : b.substituteTarget target ≠ "")
    (hc : L.NewConstraint (b.substituteTarget target) = .ok c) :
    ∃ before ver after e, b.Releases.map Release.Version = before ++ ver :: after ∧
      (∀ w ∈ before, ∃ v, L.NewVersion w = .ok v) ∧ L.NewVersion ver = .error e ∧
      b.determineBootVersion L target =
        .error ("invalid spring-boot version format: " ++ ver ++ ": " ++ e) := by
  have hne : b.Releases ≠ [] := by
    obtain ⟨r, hr, -⟩ := hbad
    exact List.ne_nil_of_mem hr
  have hbad2 : ∃ w ∈ b.Releases.map Release.Version, ∃ e, L.NewVersion w = .error e := by
    obtain ⟨r, hr, e, he⟩ := hbad
    exact ⟨r.Version, List.mem_map.2 ⟨r, hr, rfl⟩, e, he⟩
  obtain ⟨before, ver, after, e, hvs, hb, he⟩ := exists_first_malformed L _ hbad2
  refine ⟨before, ver, after, e, hvs, hb, he, ?_⟩
  rw [determineBootVersion_eq_select L b target c ht hne hc, hvs]
  simp only [selectLatestMatchingVersion,
    selectLoop_first_malformed L c before ver after e hb he none]

/-- Claim C3, as the code has it, on a catalog whose second entry is malformed while the first
satisfies the selector. -/
theorem determineBootVersion_malformed_entry_witness :
    ∃ before ver after e,
      (⟨[⟨"3.1.0", true⟩, ⟨"oops", false⟩, ⟨"3.2.0", false⟩]⟩ : BootMetadata).Releases.map
          Release.Version = before ++ ver :: after ∧
      (∀ w ∈ before, ∃ v, Semver.lib.NewVersion w = .ok v) ∧
      Semver.lib.NewVersion ver = .error e ∧
      BootMetadata.determineBootVersion Semver.lib
          ⟨[⟨"3.1.0", true⟩, ⟨"oops", false⟩, ⟨"3.2.0", false⟩]⟩ ">=3.0.0" =
        .error ("invalid spring-boot version format: " ++ ver ++ ": " ++ e) :=
  determineBootVersion_malformed_entry Semver.lib
    ⟨[⟨"3.1.0", true⟩, ⟨"oops", false⟩, ⟨"3.2.0", false⟩]⟩ ">=3.0.0" _
    ⟨⟨"oops", false⟩, by simp, _, rfl⟩ (by decide) rfl

/-- Claim C3 fails for selectors that are empty without a current release, or that do not parse:
on a catalog with the malformed entry `oops` the empty selector gives the no-current-release
error and the selector `not-a-range` gives the constraint-format error. -/
theorem determineBootVersion_malformed_entry_counterexample :
    Semver.lib.NewVersion "oops" = .error "Invalid Semantic Version" ∧
    BootMetadata.determineBootVersion Semver.lib ⟨[⟨"oops", false⟩, ⟨"3.1.0", false⟩]⟩ ""
      = .error "can not determine spring-boot version" ∧
    BootMetadata.determineBootVersion Semver.lib ⟨[⟨"oops", false⟩, ⟨"3.1.0", false⟩]⟩
        "not-a-range"
      = .error "invalid spring-boot constraint format: not-a-range: improper constraint: not-a-range" :=
  ⟨rfl, rfl, rfl⟩

/-- Claim C4, as the code has it.  For a non-empty catalog whose version strings all parse and a
selector that (after the substitution of the current release for an empty one) is non-empty and
parses as a constraint, if no catalog version satisfies the constraint then
`determineBootVersion` fails with the error `no spring-boot version matching the given
constraints`, whose text holds the constraint's string form in brackets followed by the
candidate version strings in catalog order, joined by `, `; so it contains the constraint's
string form and every candidate. -/
theorem determineBootVersion_no_match (L : SemverLib) (b : BootMetadata) (target : String)
    (c : L.Constraints) (hne : b.Releases ≠ [])
    (hp : ∀ r ∈ b.Releases, ∃ v, L.NewVersion r.Version = .ok v)
    (ht : b.substituteTarget target ≠ "")
    (hc : L.NewConstraint (b.substituteTarget target) = .ok c)
    (hnone : ∀ r ∈ b.Releases, ¬ L.Satisfies c r.Version) :
    b.determineBootVersion L target =
      .error ("no spring-boot version matching the given constraints ["
        ++ L.ConstraintsString c ++ "]: "
        ++ stringsJoin (b.Releases.map Release.Version) ", " ++ "\n") ∧
    stringsContains (noMatchingError L c (b.Releases.map Release.Version))
      (L.ConstraintsString c) ∧
    stringsContains (noMatchingError L c (b.Releases.map Release.Version))
      (stringsJoin (b.Releases.map Release.Version) ", ") ∧
    ∀ r ∈ b.Releases,
      stringsContains (noMatchingError L c (b.Releases.map Release.Version)) r.Version := by
  have hjoin : stringsContains (noMatchingError L c (b.Releases.map Release.Version))
      (stringsJoin (b.Releases.map Release.Version) ", ") := by
    unfold noMatchingError
    exact stringsContains_append_left _ _ _
      (stringsContains_append_right _ _ _ (stringsContains_refl _))
  refine ⟨?_, ?_, hjoin, ?_⟩
  · rw [determineBootVersion_eq_select L b target c ht hne hc]
    rw [selectLatest_no_match L _ c]
    · rfl
    · intro w hw
      obtain ⟨r, hr, rfl⟩ := List.mem_map.1 hw
      exact hp r hr
    · intro w hw
      obtain ⟨r, hr, rfl⟩ := List.mem_map.1 hw
      exact hnone r hr
  · unfold noMatchingError
    exact stringsContains_append_left _ _ _ (stringsContains_append_left _ _ _
      (stringsContains_append_left _ _ _
        (stringsContains_append_right _ _ _ (stringsContains_refl _))))
  · intro r hr
    have h1 : stringsContains (stringsJoin (b.Releases.map Release.Version) ", ") r.Version :=
      stringsJoin_contains _ _ _ (List.mem_map.2 ⟨r, hr, rfl⟩)
    exact List.IsInfix.trans h1 hjoin

/-- Claim C4, as the code has it, on a two-release catalog and the selector `>3.5.0`. -/
theorem determineBootVersion_no_match_witness :
    BootMetadata.determineBootVersion Semver.lib ⟨[⟨"3.0.9", false⟩, ⟨"3.1.0", true⟩]⟩
        ">3.5.0" =
      .error "no spring-boot version matching the given constraints [>3.5.0]: 3.0.9, 3.1.0\n" :=
  (determineBootVersion_no_match Semver.lib ⟨[⟨"3.0.9", false⟩, ⟨"3.1.0", true⟩]⟩ ">3.5.0"
    [⟨.gt, ">", ⟨3, 5, 0, [], [], "3.5.0"⟩⟩] (by decide)
    (by
      intro r hr
      simp only [List.mem_cons, List.mem_singleton, List.not_mem_nil, or_false] at hr
      rcases hr with rfl | rfl <;> exact ⟨_, rfl⟩)
    (by decide) rfl
    (by
      intro r hr
      simp only [List.mem_cons, List.mem_singleton, List.not_mem_nil, or_false] at hr
      rcases hr with rfl | rfl
      · rintro ⟨v, hv, hcv⟩
        have hv2 : v = ⟨3, 0, 9, [], [], "3.0.9"⟩ := by
          have h0 : Semver.lib.NewVersion "3.0.9" = .ok ⟨3, 0, 9, [], [], "3.0.9"⟩ := rfl
          rw [h0] at hv
          exact (Except.ok.inj hv).symm
        subst hv2
        exact absurd hcv (by decide)
      · rintro ⟨v, hv, hcv⟩
        have hv2 : v = ⟨3, 1, 0, [], [], "3.1.0"⟩ := by
          have h0 : Semver.lib.NewVersion "3.1.0" = .ok ⟨3, 1, 0, [], [], "3.1.0"⟩ := rfl
          rw [h0] at hv
          exact (Except.ok.inj hv).symm
        subst hv2
        exact absurd hcv (by decide))).1

/-- Claim C4 fails on the empty catalog and on a catalog with a malformed entry: in both no
catalog version satisfies the parseable selector `>=1.0.0`, and the results are the
empty-catalog error and the version-format error, not the no-match error. -/
theorem determineBootVersion_no_match_counterexample :
    (∃ c, Semver.lib.NewConstraint ">=1.0.0" = .ok c) ∧
    BootMetadata.determineBootVersion Semver.lib ⟨[]⟩ ">=1.0.0"
      = .error "no valid spring-boot versions found" ∧
    BootMetadata.determineBootVersion Semver.lib ⟨[⟨"oops", false⟩]⟩ ">=1.0.0"
      = .error "invalid spring-boot version format: oops: Invalid Semantic Version" :=
  ⟨⟨_, rfl⟩, rfl, rfl⟩

/-- Claim C2, as the code has it.  With the empty selector `determineBootVersion` substitutes the
version `V` of the first release flagged current (the only one, when exactly one is flagged) and,
`V` not being empty, resolves it like any other selector.  The result is exactly `V` if and only
if every catalog version string parses, `V` parses as a constraint that `V` itself satisfies, no
catalog entry that satisfies that constraint is strictly greater than `V`, and every entry that
satisfies it and stands before the first catalog entry spelled `V` is strictly smaller than
`V`. -/
theorem determineBootVersion_current (L : SemverLib) (hK : L.KeepsOriginal)
    (hW : L.WeakOrder) (b : BootMetadata) (before : List Release) (r : Release)
    (after : List Release)
    (hr : b.Releases = before ++ r :: after) (hcur : r.Current = true)
    (hb : ∀ u ∈ before, u.Current = false) (hV : r.Version ≠ "") :
    b.determineBootVersion L "" = b.determineBootVersion L r.Version ∧
    (b.determineBootVersion L "" = .ok r.Version ↔
      (∀ u ∈ b.Releases, ∃ v, L.NewVersion u.Version = .ok v) ∧
      ∃ c, L.NewConstraint r.Version = .ok c ∧ L.Satisfies c r.Version ∧
        (∀ u ∈ b.Releases, L.Satisfies c u.Version → ¬ L.Above u.Version r.Version) ∧
        (∀ front back, b.Releases.map Release.Version = front ++ r.Version :: back →
          r.Version ∉ front → ∀ w ∈ front, L.Satisfies c w → L.Above r.Version w)) := by
  have hsub : b.substituteTarget "" = r.Version := by
    rw [substituteTarget_empty, BootMetadata.findCurrentReleaseVersion, hr]
    exact findCurrentLoop_first before r after hcur hb
  have hsub2 : b.substituteTarget r.Version = r.Version := substituteTarget_of_ne b _ hV
  have hne : b.Releases ≠ [] := by rw [hr]; simp
  have hmem : r ∈ b.Releases := by rw [hr]; simp
  have hmemV : r.Version ∈ b.Releases.map Release.Version := List.mem_map.2 ⟨r, hmem, rfl⟩
  have hsel : ∀ c, L.NewConstraint r.Version = .ok c →
      b.determineBootVersion L "" =
        selectLatestMatchingVersion L (b.Releases.map Release.Version) c := by
    intro c hc
    exact determineBootVersion_eq_select L b "" c (by rw [hsub]; exact hV) hne
      (by rw [hsub]; exact hc)
  refine ⟨?_, ?_, ?_⟩
  · simp only [BootMetadata.determineBootVersion, hsub, hsub2]
  · intro h
    cases hc : L.NewConstraint r.Version with
    | error e =>
      have hbad : b.determineBootVersion L "" =
          .error ("invalid spring-boot constraint format: " ++ r.Version ++ ": " ++ e) := by
        simp only [BootMetadata.determineBootVersion, hsub, beq_iff_eq, hV, if_false,
          collectVersionCandidates_eq, hne, hc]
      rw [hbad] at h
      cases h
    | ok c =>
      rw [hsel c hc] at h
      have hp := selectLatest_ok_parses L _ c _ h
      obtain ⟨-, hs, hmax, hfirst⟩ := (selectLatest_eq_iff L hK hW _ c r.Version hp).1 h
      refine ⟨fun u hu => hp u.Version (List.mem_map.2 ⟨u, hu, rfl⟩), c, rfl, hs, ?_, hfirst⟩
      intro u hu
      exact hmax u.Version (List.mem_map.2 ⟨u, hu, rfl⟩)
  · rintro ⟨hp, c, hc, hs, hmax, hfirst⟩
    rw [hsel c hc]
    have hp2 : ∀ w ∈ b.Releases.map Release.Version, ∃ v, L.NewVersion w = .ok v := by
      intro w hw
      obtain ⟨u, hu, rfl⟩ := List.mem_map.1 hw
      exact hp u hu
    refine (selectLatest_eq_iff L hK hW _ c r.Version hp2).2 ⟨hmemV, hs, ?_, hfirst⟩
    intro w hw
    obtain ⟨u, hu, rfl⟩ := List.mem_map.1 hw
    exact hmax u hu

/-- Claim C2, as the code has it, on a catalog whose only current release is `3.1.0`, followed by
an entry `v3.1.0` that compares equal to it: the empty selector resolves to `3.1.0`. -/
theorem determineBootVersion_current_witness :
    BootMetadata.determineBootVersion Semver.lib
        ⟨[⟨"3.2.0-RC1", false⟩, ⟨"3.1.0", true⟩, ⟨"v3.1.0", false⟩, ⟨"3.0.9", false⟩]⟩ ""
      = .ok "3.1.0" :=
  (determineBootVersion_current Semver.lib Semver.lib_keepsOriginal Semver.lib_weakOrder
    ⟨[⟨"3.2.0-RC1", false⟩, ⟨"3.1.0", true⟩, ⟨"v3.1.0", false⟩, ⟨"3.0.9", false⟩]⟩
    [⟨"3.2.0-RC1", false⟩] ⟨"3.1.0", true⟩ [⟨"v3.1.0", false⟩, ⟨"3.0.9", false⟩]
    rfl rfl (by decide) (by decide)).2.2
    (by
      have hrc : ¬ Semver.lib.Satisfies [⟨.eq, "", ⟨3, 1, 0, [], [], "3.1.0"⟩⟩] "3.2.0-RC1" := by
        rintro ⟨v, hv, hcv⟩
        have h0 : Semver.lib.NewVersion "3.2.0-RC1" =
            .ok ⟨3, 2, 0, [.alnum ['R', 'C', '1']], [], "3.2.0-RC1"⟩ := rfl
        rw [h0] at hv
        have hv2 := (Except.ok.inj hv).symm
        subst hv2
        exact absurd hcv (by decide)
      have habove : ∀ w v : Semver.Version, Semver.lib.NewVersion "3.1.0" = .ok v →
          Semver.GreaterThan w ⟨3, 1, 0, [], [], "3.1.0"⟩ = false →
          Semver.lib.GreaterThan w v = false := by
        intro w v hv hw
        have h0 : Semver.lib.NewVersion "3.1.0" = .ok ⟨3, 1, 0, [], [], "3.1.0"⟩ := rfl
        rw [h0] at hv
        have hv2 := (Except.ok.inj hv).symm
        subst hv2
        exact hw
      refine ⟨?_, [⟨.eq, "", ⟨3, 1, 0, [], [], "3.1.0"⟩⟩], rfl, ⟨_, rfl, rfl⟩, ?_, ?_⟩
      · intro u hu
        simp only [List.mem_cons, List.mem_singleton, List.not_mem_nil, or_false] at hu
        rcases hu with rfl | rfl | rfl | rfl <;> exact ⟨_, rfl⟩
      · intro u hu hsat
        simp only [List.mem_cons, List.mem_singleton, List.not_mem_nil, or_false] at hu
        rcases hu with rfl | rfl | rfl | rfl
        · exact absurd hsat hrc
        · rintro ⟨va, vb, hva, hvb, hg⟩
          have h0 : Semver.lib.NewVersion "3.1.0" = .ok ⟨3, 1, 0, [], [], "3.1.0"⟩ := rfl
          rw [h0] at hva
          have hva2 := (Except.ok.inj hva).symm
          subst hva2
          rw [habove _ vb hvb (by decide)] at hg
          cases hg
        · rintro ⟨va, vb, hva, hvb, hg⟩
          have h0 : Semver.lib.NewVersion "v3.1.0" = .ok ⟨3, 1, 0, [], [], "v3.1.0"⟩ := rfl
          rw [h0] at hva
          have hva2 := (Except.ok.inj hva).symm
          subst hva2
          rw [habove _ vb hvb (by decide)] at hg
          cases hg
        · rintro ⟨va, vb, hva, hvb, hg⟩
          have h0 : Semver.lib.NewVersion "3.0.9" = .ok ⟨3, 0, 9, [], [], "3.0.9"⟩ := rfl
          rw [h0] at hva
          have hva2 := (Except.ok.inj hva).symm
          subst hva2
          rw [habove _ vb hvb (by decide)] at hg
          cases hg
      · intro front back hfb hnot w hw hsat
        have hf : front = ["3.2.0-RC1"] :=
          first_occurrence_unique "3.1.0" front back ["3.2.0-RC1"] ["v3.1.0", "3.0.9"]
            hfb.symm hnot (by decide)
        rw [hf] at hw
        simp only [List.mem_singleton] at hw
        subst hw
        exact absurd hsat hrc)

/-- Claim C2 fails on three catalogs in which exactly one release is flagged current: with a
malformed other entry the result is the version-format error; with an earlier entry that
compares equal to the current version the result is that entry's string; and with a current
release whose version string is empty the result is the no-current-release error. -/
theorem determineBootVersion_current_counterexample :
    BootMetadata.determineBootVersion Semver.lib ⟨[⟨"3.1.0", true⟩, ⟨"oops", false⟩]⟩ ""
      = .error "invalid spring-boot version format: oops: Invalid Semantic Version" ∧
    BootMetadata.determineBootVersion Semver.lib ⟨[⟨"v3.1.0", false⟩, ⟨"3.1.0", true⟩]⟩ ""
      = .ok "v3.1.0" ∧
    BootMetadata.determineBootVersion Semver.lib ⟨[⟨"", true⟩]⟩ ""
      = .error "can not determine spring-boot version" :=
  ⟨rfl, rfl, rfl⟩

end SpringVersion
